import Mathlib

/-! Shallow embedding of `src/heapAlloc.c` (`initHeap`, `allocHeap`, `freeHeap`): a
boundary-tag heap allocator with next-fit placement and immediate coalescing.

* Memory is a total map from byte addresses to the 4-byte word stored there
  (`blockHeader.size_status`).  Every access the allocator makes is to a word-aligned
  address, so words never overlap.  User writes into payloads are not modelled.
* Pointers are absolute byte addresses, `0` is `NULL`.
* `int` is modelled by `Int`; the C operator `%` is `Int.tmod` (truncating), and `x & 1`
  is `x % 2` (Euclidean), which agrees with two's complement.  In every state considered
  below all values stay far inside the 32-bit range.
* The scanning loop of `allocHeap` has no termination measure in the source, so it is
  embedded with a fuel counter: `none` means the fuel ran out before the loop returned.
-/

namespace HeapAlloc

/-! Data model -/

/-- The process-wide allocator state: the arena contents and the globals of the source
file (`heapStart`, `allocsize`, `recentlyAllocated`, and the function-static
`allocated_once` of `initHeap`). -/
structure State where
  mem : Int → Int
  heapStart : Int
  allocsize : Int
  recentlyAllocated : Int
  allocated_once : Int

/-- The state of the process before any call: all globals are zero (`NULL`). -/
def State.boot : State :=
  { mem := fun _ => 0, heapStart := 0, allocsize := 0, recentlyAllocated := 0,
    allocated_once := 0 }

/-- Store the word `v` at address `a` (`((blockHeader*)a)->size_status = v`). -/
def store (s : State) (a v : Int) : State :=
  { s with mem := fun x => if x = a then v else s.mem x }

/-- The size recorded in the header at `a`: `size_status - size_status % 4`. -/
def blockSize (s : State) (a : Int) : Int :=
  s.mem a - Int.tmod (s.mem a) 4

/-- What the operating system answers during `initHeap`: `getpagesize()`, the descriptor
returned by `open`, and the result of `mmap` (`none` is `MAP_FAILED`). -/
structure Env where
  pagesize : Int
  fd : Int
  mmap_ptr : Option Int

/-! initHeap -/

/-- The function `initHeap` (source lines 253-322).  Returns the new state and the result
code.  A successful `mmap` hands out zero-filled memory. -/
def initHeap (env : Env) (s : State) (sizeOfRegion : Int) : State × Int :=
  if 0 ≠ s.allocated_once then (s, -1)
  else if sizeOfRegion ≤ 0 then (s, -1)
  else
    let pagesize := env.pagesize
    let padsize0 := Int.tmod sizeOfRegion pagesize
    let padsize := Int.tmod (pagesize - padsize0) pagesize
    let s1 := { s with allocsize := sizeOfRegion + padsize }
    if env.fd = -1 then (s1, -1)
    else
      match env.mmap_ptr with
      | none => ({ s1 with allocated_once := 0 }, -1)
      | some mmap_ptr =>
        let s2 : State :=
          { s1 with
            mem := fun x => if mmap_ptr ≤ x ∧ x < mmap_ptr + s1.allocsize then 0 else s1.mem x
            allocated_once := 1 }
        let s3 := { s2 with allocsize := s2.allocsize - 8 }
        let s4 := { s3 with heapStart := mmap_ptr + 4 }
        let endMark := s4.heapStart + s4.allocsize
        let s5 := store s4 endMark 1
        let s6 := store s5 s5.heapStart s5.allocsize
        let s7 := store s6 s6.heapStart (s6.mem s6.heapStart + 2)
        let footer := s7.heapStart + s7.allocsize - 4
        let s8 := store s7 footer s7.allocsize
        (s8, 0)

/-! allocHeap -/

/-- The rounding loop `while (blocksize % 8 != 0) blocksize += 1` (lines 109-111).  Seven
iterations always suffice; the counter is the number of iterations still allowed. -/
def padBlocksize : Nat → Int → Int
  | 0, blocksize => blocksize
  | n + 1, blocksize =>
    if Int.tmod blocksize 8 ≠ 0 then padBlocksize n (blocksize + 1) else blocksize

/-- The block size required for a payload of `size` bytes: `size + sizeof(blockHeader)`
rounded up to a multiple of 8 (lines 108-111). -/
def requiredSize (size : Int) : Int :=
  padBlocksize 8 (size + 4)

/-- The scanning loop `while (notDone)` of `allocHeap` (lines 119-165), started at
`current`.  `none`: the fuel ran out.  `some (s, p)`: the call returned `p` (`0` is `NULL`)
and left the state `s`. -/
def allocLoop : Nat → State → Int → Int → Option (State × Int)
  | 0, _, _, _ => none
  | fuel + 1, s, blocksize, current =>
    let currentSize := s.mem current - Int.tmod (s.mem current) 4
    if s.mem current % 2 = 0 then
      if currentSize - blocksize ≥ 0 then
        if currentSize - blocksize = 0 then
          let s1 := store s current (s.mem current + 1)
          let s2 := { s1 with recentlyAllocated := current }
          let next := current + blocksize
          let s3 := store s2 next (s2.mem next + 2)
          some (s3, current + 4)
        else
          let splitSize := currentSize - blocksize
          let s1 :=
            if Int.tmod (s.mem current) 8 = 0 ∧ current ≠ s.heapStart then
              store s current (blocksize + 1)
            else
              store s current (blocksize + 3)
          let s2 := { s1 with recentlyAllocated := current }
          let splitBlock := current + blocksize
          let footer := splitBlock + splitSize - 4
          let s3 := store s2 splitBlock (splitSize + 2)
          let s4 := store s3 footer splitSize
          some (s4, current + 4)
      else
        allocLoop fuel s blocksize (current + currentSize)
    else
      let current1 := current + currentSize
      let current2 := if s.mem current1 = 1 then s.heapStart else current1
      if current2 = s.recentlyAllocated then some (s, 0)
      else allocLoop fuel s blocksize current2

/-- The function `allocHeap` (lines 98-166). -/
def allocHeap (fuel : Nat) (s : State) (size : Int) : Option (State × Int) :=
  if size < 0 then some (s, 0)
  else if size > s.allocsize then some (s, 0)
  else
    let blocksize := requiredSize size
    let s1 := if s.recentlyAllocated = 0 then { s with recentlyAllocated := s.heapStart } else s
    allocLoop fuel s1 blocksize s1.recentlyAllocated

/-! freeHeap -/

/-- The function `freeHeap` (lines 182-244).  Returns the new state and the result code.
The comparison `ptrBlock > heapStart + allocsize` is pointer arithmetic on `blockHeader*`,
hence `4 * allocsize` bytes. -/
def freeHeap (s : State) (ptr : Int) : State × Int :=
  if ptr = 0 then (s, -1)
  else
    let ptrBlock := ptr - 4
    let ptrBlockSize := s.mem ptrBlock - Int.tmod (s.mem ptrBlock) 4
    if s.mem ptrBlock % 2 = 0 then (s, -1)
    else if Int.tmod ptrBlockSize 8 ≠ 0 then (s, -1)
    else if ptrBlock < s.heapStart ∨ ptrBlock > s.heapStart + 4 * s.allocsize then (s, -1)
    else
      let nextBlock := ptrBlock + ptrBlockSize
      if Int.tmod (s.mem ptrBlock) 8 = 1 then
        let prevBlockFooter := ptrBlock - 4
        let prevBlockHeader := ptrBlock - s.mem prevBlockFooter
        let s1 :=
          if s.recentlyAllocated = ptrBlock then { s with recentlyAllocated := prevBlockHeader }
          else s
        if Int.tmod (s1.mem nextBlock) 8 = 2 then
          let s2 := store s1 prevBlockHeader
            (s1.mem prevBlockHeader + (ptrBlockSize + (s1.mem nextBlock - Int.tmod (s1.mem nextBlock) 4)))
          let footer := nextBlock + (s2.mem nextBlock - Int.tmod (s2.mem nextBlock) 4) - 4
          let s3 := store s2 footer (s2.mem prevBlockHeader - Int.tmod (s2.mem prevBlockHeader) 4)
          (s3, 0)
        else
          let s2 := store s1 prevBlockHeader (s1.mem prevBlockHeader + ptrBlockSize)
          let footer := nextBlock - 4
          let s3 := store s2 footer (s2.mem prevBlockHeader - Int.tmod (s2.mem prevBlockHeader) 4)
          let s4 := store s3 nextBlock (s3.mem nextBlock - 2)
          (s4, 0)
      else if Int.tmod (s.mem nextBlock) 8 = 2 then
        let s1 := store s ptrBlock (s.mem ptrBlock - 1)
        let s2 := store s1 nextBlock (s1.mem nextBlock - 2)
        let s3 := store s2 ptrBlock
          (s2.mem ptrBlock + (s2.mem nextBlock - Int.tmod (s2.mem nextBlock) 4))
        let nextFooter := nextBlock + (s3.mem nextBlock - Int.tmod (s3.mem nextBlock) 4) - 4
        let s4 := store s3 nextFooter
          (ptrBlockSize + (s3.mem nextBlock - Int.tmod (s3.mem nextBlock) 4))
        (s4, 0)
      else
        let s1 := store s ptrBlock (s.mem ptrBlock - 1)
        let ptrBlockFooter := ptrBlock + ptrBlockSize - 4
        let s2 := store s1 ptrBlockFooter ptrBlockSize
        let s3 := store s2 nextBlock (s2.mem nextBlock - 2)
        (s3, 0)

/-! Call sequences and reachable states -/

/-- One call made by the client program. -/
inductive Op where
  | alloc (size : Int)
  | free (ptr : Int)

/-- Perform one call.  The second component is the list of outstanding pointers: those
returned by `allocHeap` and not released since.  A `free` is only performed on an
outstanding pointer; an `alloc` that does not return within the fuel is no step. -/
def step (fuel : Nat) (c : State × List Int) (op : Op) : Option (State × List Int) :=
  match op with
  | Op.alloc size =>
    match allocHeap fuel c.1 size with
    | none => none
    | some r => some (r.1, if r.2 = 0 then c.2 else r.2 :: c.2)
  | Op.free ptr =>
    if ptr ∈ c.2 then
      some ((freeHeap c.1 ptr).1, if (freeHeap c.1 ptr).2 = 0 then c.2.erase ptr else c.2)
    else none

/-- Perform a sequence of calls, left to right. -/
def run (fuel : Nat) : State × List Int → List Op → Option (State × List Int)
  | c, [] => some c
  | c, op :: ops =>
    match step fuel c op with
    | none => none
    | some c1 => run fuel c1 ops

/-- An operating system that lets `initHeap` succeed: the page size is a multiple of 8
larger than 8, `open` succeeds and `mmap` returns a non-null page-aligned address. -/
def Env.ok (env : Env) : Prop :=
  8 < env.pagesize ∧ env.pagesize % 8 = 0 ∧ env.fd ≠ -1 ∧
    ∃ p, env.mmap_ptr = some p ∧ 0 < p ∧ p % env.pagesize = 0

/-- The states reached from a successful `initHeap` by a finite sequence of returning
`allocHeap` calls and of `freeHeap` calls on outstanding pointers; `live` lists the
outstanding pointers. -/
def Reachable (s : State) (live : List Int) : Prop :=
  ∃ (env : Env) (sizeOfRegion : Int) (fuel : Nat) (ops : List Op),
    env.ok ∧ 0 < sizeOfRegion ∧ sizeOfRegion + env.pagesize < 2147483648 ∧
    (initHeap env State.boot sizeOfRegion).2 = 0 ∧
    run fuel ((initHeap env State.boot sizeOfRegion).1, []) ops = some (s, live)

/-! The block sequence and its invariants -/

/-- Walking from `a` by repeatedly adding the recorded size of the header met, over
headers of positive size only, arrives exactly at the address of the end marker,
`heapStart + allocsize`. -/
inductive WalksToEnd (s : State) : Int → Prop
  | done : WalksToEnd s (s.heapStart + s.allocsize)
  | step (a : Int) : 0 < blockSize s a → WalksToEnd s (a + blockSize s a) → WalksToEnd s a

/-- The address `a` is the header of a block of the sequence walked from `heapStart`:
the first block starts at `heapStart`, and the block after the one at `a` starts at
`a + blockSize s a` as long as that lies before the end marker. -/
inductive IsBlock (s : State) : Int → Prop
  | first : 0 < s.allocsize → IsBlock s s.heapStart
  | next (a : Int) : IsBlock s a → a + blockSize s a < s.heapStart + s.allocsize →
      IsBlock s (a + blockSize s a)

/-- No two consecutive blocks of the sequence are both free (allocated bit 0). -/
def NoAdjacentFree (s : State) : Prop :=
  ∀ a, IsBlock s a → IsBlock s (a + blockSize s a) →
    ¬ (s.mem a % 2 = 0 ∧ s.mem (a + blockSize s a) % 2 = 0)

/-- Every free block of the sequence carries, in its last 4 bytes, a footer equal to the
size recorded in its header. -/
def FootersMatch (s : State) : Prop :=
  ∀ a, IsBlock s a → s.mem a % 2 = 0 → s.mem (a + blockSize s a - 4) = blockSize s a

/-- Bit 1 of the first header is set, and bit 1 of every later header of the sequence
equals bit 0 of the header of the block just before it. -/
def PrevBitsCorrect (s : State) : Prop :=
  s.mem s.heapStart / 2 % 2 = 1 ∧
    ∀ a, IsBlock s a → IsBlock s (a + blockSize s a) →
      s.mem (a + blockSize s a) / 2 % 2 = s.mem a % 2

/-- The arena is one free block: header `allocsize + 2` at `heapStart`, footer `allocsize`
in the last 4 bytes, end marker `1`. -/
def SingleFree (s : State) : Prop :=
  s.mem s.heapStart = s.allocsize + 2 ∧
    s.mem (s.heapStart + s.allocsize - 4) = s.allocsize ∧
    s.mem (s.heapStart + s.allocsize) = 1

/-! A concrete run: one page of 4096 bytes mapped at address 65536 -/

/-- The operating system of the concrete runs below. -/
def env0 : Env := { pagesize := 4096, fd := 3, mmap_ptr := some 65536 }

/-- The state right after `initHeap(4096)`: `heapStart = 65540`, `allocsize = 4088`. -/
def h0 : State := (initHeap env0 State.boot 4096).1

/-- The state after the calls `ops` made on `h0`. -/
def stateAfter (ops : List Op) : State :=
  match run 8 (h0, []) ops with
  | some c => c.1
  | none => h0

/-- The outstanding pointers after the calls `ops` made on `h0`. -/
def liveAfter (ops : List Op) : List Int :=
  match run 8 (h0, []) ops with
  | some c => c.2
  | none => []

/-- Calls after which the cursor points into the interior of a free block:
two allocations, then the second and the first are released. -/
def opsStale : List Op := [Op.alloc 4, Op.alloc 4, Op.free 65552, Op.free 65544]

/-- Calls after which a too small free block lies right before the block the cursor
references: two allocations, then the first is released. -/
def opsHole : List Op := [Op.alloc 4, Op.alloc 4, Op.free 65544]

/-- Calls after which the last block of the arena is in use (allocated by an exact fit)
and the first block is free. -/
def opsFull : List Op := [Op.alloc 4, Op.alloc 4076, Op.free 65544]

/-- Calls that allocate out of the interior of a free block (through the stale cursor)
by an exact fit. -/
def opsInner : List Op :=
  [Op.alloc 4, Op.alloc 12, Op.alloc 20, Op.alloc 4028, Op.free 65552, Op.alloc 12,
    Op.free 65552, Op.free 65544, Op.alloc 12]

/-! The block sequence as a list, and the data-model invariants -/

/-- A block as the data model describes it: its total size in bytes and whether its
payload is handed out. -/
structure Blk where
  size : Int
  used : Bool

/-- The header word of a block: the size with the allocated bit (bit 0) and the
prev_allocated bit (bit 1) packed into the two low bits. -/
def headerWord (size : Int) (used prevUsed : Bool) : Int :=
  size + (if used then 1 else 0) + (if prevUsed then 2 else 0)

/-- The block `b` sits at address `a` behind a predecessor of status `prevUsed`: its size
is a positive multiple of 8, its header holds the size and both status bits, and when it
is free its last 4 bytes hold a footer equal to the size and its predecessor is in use. -/
def BlockAt (s : State) (a : Int) (prevUsed : Bool) (b : Blk) : Prop :=
  0 < b.size ∧ b.size % 8 = 0 ∧ s.mem a = headerWord b.size b.used prevUsed ∧
    (b.used = false → s.mem (a + b.size - 4) = b.size ∧ prevUsed = true)

/-- The blocks of `l` lie back to back from address `a` on, the first one behind a
predecessor of status `p`; `fin` is what is asked of the address right after the last
block and of the status of the last block. -/
def Chain (s : State) (fin : Int → Bool → Prop) : Int → Bool → List Blk → Prop
  | a, p, [] => fin a p
  | a, p, b :: rest => BlockAt s a p b ∧ Chain s fin (a + b.size) b.used rest

/-- The blocks of `l` lie back to back from `a` on (nothing is asked of what follows). -/
def Seg (s : State) (a : Int) (p : Bool) (l : List Blk) : Prop :=
  Chain s (fun _ _ => True) a p l

/-- The blocks of `l` lie back to back from `a` up to the end marker: the walk arrives
at `heapStart + allocsize`, where the word is the literal `1`. -/
def Layout (s : State) (a : Int) (p : Bool) (l : List Blk) : Prop :=
  Chain s (fun e _ => e = s.heapStart + s.allocsize ∧ s.mem e = 1) a p l

/-- The data-model invariants for the block sequence `l` of the state `s`: the walk from
`heapStart` (not `NULL`) ends at the end marker, sizes are positive multiples of 8, free
headers match their footers, prev_allocated bits are correct (set in the first block),
and no two adjacent blocks are free. -/
def WellFormed (s : State) (l : List Blk) : Prop :=
  0 < s.heapStart ∧ Layout s s.heapStart true l

/-- The total size of the blocks of `l`. -/
def sumSizes (l : List Blk) : Int := (l.map Blk.size).sum

/-- The status of the last block of `l`, or `p` when `l` is empty. -/
def lastUsed (p : Bool) (l : List Blk) : Bool :=
  match l.getLast? with
  | some q => q.used
  | none => p

/-- The size of the last block of `pre` when that block is free, else `0`. -/
def freeTailSize (pre : List Blk) : Int :=
  match pre.getLast? with
  | some q => if q.used then 0 else q.size
  | none => 0

/-- The list `pre` without its last block when that block is free. -/
def dropFreeTail (pre : List Blk) : List Blk :=
  match pre.getLast? with
  | some q => if q.used then pre else pre.dropLast
  | none => pre

/-- The size of the first block of `post` when that block is free, else `0`. -/
def freeHeadSize (post : List Blk) : Int :=
  match post with
  | q :: _ => if q.used then 0 else q.size
  | [] => 0

/-- The list `post` without its first block when that block is free. -/
def dropFreeHead (post : List Blk) : List Blk :=
  match post with
  | q :: rest => if q.used then post else rest
  | [] => []

/-- The block sequence `pre ++ b :: post` after `b` is released: `b` and each free
immediate neighbour are replaced by one free block of the combined size. -/
def released (pre : List Blk) (b : Blk) (post : List Blk) : List Blk :=
  dropFreeTail pre ++
    { size := freeTailSize pre + b.size + freeHeadSize post, used := false } :: dropFreeHead post

/-- The blocks of `l` lie back to back from `a` up to the end marker at
`heapStart + allocsize`, a word whose allocated bit is set: the literal 1 that `initHeap`
writes, or the 3 that `allocHeap` leaves there behind a last block in use. -/
def Blocks (s : State) (a : Int) (p : Bool) (l : List Blk) : Prop :=
  Chain s (fun e _ => e = s.heapStart + s.allocsize ∧ s.mem e % 2 = 1) a p l

/-- The data-model invariants for the block sequence `l` of the state `s`, with nothing
asked of the prev_allocated bit of the end-marker word: the walk from `heapStart` (not
`NULL`) ends at the end marker, sizes are positive multiples of 8, free headers match
their footers, prev_allocated bits of the blocks are correct (set in the first block), and
no two adjacent blocks are free. -/
def Invariants (s : State) (l : List Blk) : Prop :=
  0 < s.heapStart ∧ Blocks s s.heapStart true l

/-- The postcondition of releasing the block `b` of the sequence `pre ++ b :: post`,
where `r` is what `freeHeap` returned: the result code is `0`; the new state satisfies the
invariants for the sequence `released pre b post`, in which `b` and its free immediate
neighbours are one free block (so the block after it has its prev_allocated bit cleared);
`heapStart` and `allocsize` are unchanged; no word before the merged block or after the
header that follows it has changed; the end-marker word is 2 less than before when `b` was
the last block and is unchanged otherwise; and the cursor is redirected to the
predecessor's header exactly when it referenced `b` and the predecessor was free. -/
def Coalesced (s : State) (pre : List Blk) (b : Blk) (post : List Blk)
    (r : State × Int) : Prop :=
  r.2 = 0 ∧
  Invariants r.1 (released pre b post) ∧
  r.1.heapStart = s.heapStart ∧ r.1.allocsize = s.allocsize ∧
  (∀ x, x < s.heapStart + sumSizes pre - freeTailSize pre ∨
      s.heapStart + sumSizes pre + b.size + freeHeadSize post < x → r.1.mem x = s.mem x) ∧
  r.1.mem (s.heapStart + s.allocsize) =
    (if post.isEmpty then s.mem (s.heapStart + s.allocsize) - 2
    else s.mem (s.heapStart + s.allocsize)) ∧
  r.1.recentlyAllocated =
    (if s.recentlyAllocated = s.heapStart + sumSizes pre ∧ lastUsed true pre = false then
      s.heapStart + sumSizes pre - freeTailSize pre
    else s.recentlyAllocated)

/-! States and operating systems used for the later claims -/

/-- The state right after `initHeap(4096)` in a process in which the word 8 bytes past the
end marker (memory the allocator does not own) holds 11. -/
def sForeign : State := store h0 69636 11

/-- An operating system whose page size is 8 bytes. -/
def envTiny : Env := { pagesize := 8, fd := 3, mmap_ptr := some 65536 }

/-- An operating system on which `open` fails. -/
def envNoFile : Env := { pagesize := 4096, fd := -1, mmap_ptr := none }

/-! The layout that the code maintains, and the runs that keep the cursor on a block -/

/-- The block of `l` that starts `off` bytes after the first block of `l`, if there is
one. -/
def blockAtOffset : List Blk → Int → Option Blk
  | [], _ => none
  | b :: rest, off => if off = 0 then some b else blockAtOffset rest (off - b.size)

/-- The layout that the code maintains: the blocks of `l` lie back to back from `a` up to
`heapStart + allocsize`, and the end-marker word there carries in bit 1 the status of the
last block (the word is 1 behind a free block and 3 behind a used one). -/
def Tags (s : State) (a : Int) (p : Bool) (l : List Blk) : Prop :=
  Chain s (fun e q => e = s.heapStart + s.allocsize ∧ s.mem e = headerWord 0 true q) a p l

/-- The arena invariant that the code maintains for the block sequence `l`. -/
def Arena (s : State) (l : List Blk) : Prop :=
  0 < s.heapStart ∧ s.heapStart % 8 = 4 ∧ 0 < s.allocsize ∧ Tags s s.heapStart true l

/-- All sizes are positive (as `Seg` guarantees). -/
def PosSizes (l : List Blk) : Prop := ∀ b ∈ l, 0 < b.size

/-- The blocks that replace the free block `b` when `blocksize` bytes of it are handed
out: the used block alone on an exact fit, else the used block and the free remainder. -/
def placed (blocksize : Int) (b : Blk) : List Blk :=
  if b.size = blocksize then [{ size := blocksize, used := true }]
  else [{ size := blocksize, used := true }, { size := b.size - blocksize, used := false }]

/-- The cursor is unset or references the header of a block of the sequence. -/
def CursorOk (s : State) : Prop :=
  s.recentlyAllocated = 0 ∨ IsBlock s s.recentlyAllocated

/-- The states reached from a successful `initHeap` by returning `allocHeap` calls and by
`freeHeap` calls on outstanding pointers, where after each `freeHeap` call the cursor is
unset or references the header of a block of the sequence; `live` lists the outstanding
pointers. -/
inductive ReachableOk : State → List Int → Prop
  | init (env : Env) (sizeOfRegion : Int) : env.ok → 0 < sizeOfRegion →
      sizeOfRegion + env.pagesize < 2147483648 →
      ReachableOk (initHeap env State.boot sizeOfRegion).1 []
  | alloc (s : State) (live : List Int) (fuel : Nat) (size : Int) (r : State × Int) :
      ReachableOk s live → allocHeap fuel s size = some r →
      ReachableOk r.1 (if r.2 = 0 then live else r.2 :: live)
  | free (s : State) (live : List Int) (ptr : Int) :
      ReachableOk s live → ptr ∈ live → CursorOk (freeHeap s ptr).1 →
      ReachableOk (freeHeap s ptr).1
        (if (freeHeap s ptr).2 = 0 then live.erase ptr else live)

/-- The invariant carried along a run: the arena invariant for some block sequence, a
cursor that is unset or references a block of it, and outstanding pointers that are the
payload addresses of distinct used blocks of it. -/
def RunInv (s : State) (live : List Int) : Prop :=
  ∃ l, Arena s l ∧
    (s.recentlyAllocated = 0 ∨
      (blockAtOffset l (s.recentlyAllocated - s.heapStart)).isSome = true) ∧
    (∀ q ∈ live, ∃ b, blockAtOffset l (q - 4 - s.heapStart) = some b ∧ b.used = true) ∧
    live.Nodup

/-- Calls after which a block of the sequence has a size that is not a multiple of 8. -/
def opsOddSize : List Op :=
  [Op.alloc 4, Op.alloc 4, Op.alloc 4, Op.free 65560, Op.free 65552, Op.alloc 12,
    Op.alloc 4, Op.alloc 4, Op.free 65560, Op.free 65576, Op.free 65544]

/-! Theorems -/

/-! More fuel never changes a result -/

theorem allocLoop_fuel_succ (fuel : Nat) (s : State) (blocksize : Int) :
    ∀ (current : Int) (r : State × Int), allocLoop fuel s blocksize current = some r →
      allocLoop (fuel + 1) s blocksize current = some r := by
  induction fuel with
  | zero => intro current r h; simp [allocLoop] at h
  | succ n ih =>
    intro current r h
    rw [allocLoop] at h ⊢
    dsimp only at h ⊢
    split_ifs at h ⊢ <;> first | exact h | exact ih _ _ h

theorem allocHeap_fuel_succ (fuel : Nat) (s : State) (size : Int) (r : State × Int)
    (h : allocHeap fuel s size = some r) : allocHeap (fuel + 1) s size = some r := by
  unfold allocHeap at h ⊢
  dsimp only at h ⊢
  split_ifs at h ⊢ <;> first | exact h | exact allocLoop_fuel_succ fuel _ _ _ r h

/-! Reachability of the concrete runs -/

theorem reachable_stateAfter (ops : List Op) (h : (run 8 (h0, []) ops).isSome = true) :
    Reachable (stateAfter ops) (liveAfter ops) := by
  refine ⟨env0, 4096, 8, ops, ?_, by decide, by decide, by decide, ?_⟩
  · exact ⟨by decide, by decide, by decide, 65536, rfl, by decide, by decide⟩
  · show run 8 (h0, []) ops = some (stateAfter ops, liveAfter ops)
    unfold stateAfter liveAfter
    cases hr : run 8 (h0, []) ops with
    | none => rw [hr] at h; cases h
    | some c => rfl

theorem allocHeap_some_eq (fuel : Nat) (s : State) (size : Int)
    (h : (allocHeap fuel s size).isSome = true) :
    allocHeap fuel s size =
      some (((allocHeap fuel s size).getD (s, 0)).1, ((allocHeap fuel s size).getD (s, 0)).2) := by
  cases hr : allocHeap fuel s size with
  | none => rw [hr] at h; cases h
  | some c => rfl

/-! Unfolding the scanning loop -/

theorem allocHeap_eq_allocLoop (fuel : Nat) (s : State) (size : Int) (h1 : 0 ≤ size)
    (h2 : size ≤ s.allocsize) (h3 : s.recentlyAllocated ≠ 0) :
    allocHeap fuel s size = allocLoop fuel s (requiredSize size) s.recentlyAllocated := by
  unfold allocHeap
  rw [if_neg (by omega), if_neg (by omega)]
  simp only [if_neg h3]

theorem allocLoop_skip_used (fuel : Nat) (s : State) (blocksize current : Int)
    (hodd : s.mem current % 2 ≠ 0)
    (hne : (if s.mem (current + blockSize s current) = 1 then s.heapStart
      else current + blockSize s current) ≠ s.recentlyAllocated) :
    allocLoop (fuel + 1) s blocksize current =
      allocLoop fuel s blocksize
        (if s.mem (current + blockSize s current) = 1 then s.heapStart
          else current + blockSize s current) := by
  unfold blockSize at hne ⊢
  rw [allocLoop]
  simp only [if_neg hodd, if_neg hne]

theorem allocLoop_skip_small (fuel : Nat) (s : State) (blocksize current : Int)
    (heven : s.mem current % 2 = 0) (hsmall : blockSize s current < blocksize) :
    allocLoop (fuel + 1) s blocksize current =
      allocLoop fuel s blocksize (current + blockSize s current) := by
  unfold blockSize at hsmall ⊢
  rw [allocLoop]
  have : ¬ (s.mem current - Int.tmod (s.mem current) 4 - blocksize ≥ 0) := by omega
  simp only [if_pos heven, if_neg this]

/-! Walking the block sequence -/

theorem walksToEnd_le (s : State) (a : Int) (h : WalksToEnd s a) :
    a ≤ s.heapStart + s.allocsize := by
  induction h with
  | done => exact le_refl _
  | step a hpos _ ih => omega

theorem walksToEnd_cases (s : State) (a : Int) (h : WalksToEnd s a) :
    a = s.heapStart + s.allocsize ∨
      (0 < blockSize s a ∧ WalksToEnd s (a + blockSize s a)) := by
  cases h with
  | done => exact Or.inl rfl
  | step _ hpos hnext => exact Or.inr ⟨hpos, hnext⟩

theorem walksToEnd_step (s : State) (a sz b : Int) (hsz : blockSize s a = sz) (hpos : 0 < sz)
    (hb : a + sz = b) (h : WalksToEnd s b) : WalksToEnd s a := by
  subst hsz hb
  exact WalksToEnd.step a hpos h

theorem walksToEnd_done (s : State) (a : Int) (h : s.heapStart + s.allocsize = a) :
    WalksToEnd s a := by
  subst h
  exact WalksToEnd.done

theorem isBlock_opsHole (a : Int) (h : IsBlock (stateAfter opsHole) a) :
    a = 65540 ∨ a = 65548 ∨ a = 65556 := by
  have hb0 : blockSize (stateAfter opsHole) 65540 = 8 := by decide
  have hb1 : blockSize (stateAfter opsHole) 65548 = 8 := by decide
  have hb2 : blockSize (stateAfter opsHole) 65556 = 4072 := by decide
  have hs : (stateAfter opsHole).heapStart = 65540 := by decide
  have ha : (stateAfter opsHole).allocsize = 4088 := by decide
  induction h with
  | first _ => left; exact hs
  | next a _ hlt ih =>
    rcases ih with rfl | rfl | rfl
    · rw [hb0]; right; left; rfl
    · rw [hb1]; right; right; rfl
    · rw [hb2, hs, ha] at hlt; omega

/-! Lists of blocks laid out in memory -/

theorem sumSizes_nil : sumSizes [] = 0 := rfl

theorem sumSizes_cons (b : Blk) (l : List Blk) : sumSizes (b :: l) = b.size + sumSizes l := by
  simp [sumSizes]

theorem sumSizes_append (l1 l2 : List Blk) :
    sumSizes (l1 ++ l2) = sumSizes l1 + sumSizes l2 := by
  simp [sumSizes]

theorem lastUsed_nil (p : Bool) : lastUsed p [] = p := rfl

theorem lastUsed_cons (p : Bool) (b : Blk) (l : List Blk) :
    lastUsed p (b :: l) = lastUsed b.used l := by
  cases l with
  | nil => rfl
  | cons c r =>
    unfold lastUsed
    rw [List.getLast?_cons_cons]
    cases h : (c :: r).getLast? with
    | none => simp at h
    | some q => rfl

theorem lastUsed_concat (p : Bool) (l : List Blk) (q : Blk) :
    lastUsed p (l ++ [q]) = q.used := by
  simp [lastUsed]

theorem chain_iff (s : State) (fin : Int → Bool → Prop) (l : List Blk) :
    ∀ (a : Int) (p : Bool),
      Chain s fin a p l ↔ Seg s a p l ∧ fin (a + sumSizes l) (lastUsed p l) := by
  induction l with
  | nil =>
    intro a p
    simp [Chain, Seg, sumSizes_nil, lastUsed_nil]
  | cons b rest ih =>
    intro a p
    have e : a + sumSizes (b :: rest) = a + b.size + sumSizes rest := by
      rw [sumSizes_cons]; ring
    rw [e, lastUsed_cons]
    unfold Seg at ih ⊢
    simp only [Chain]
    rw [ih (a + b.size) b.used]
    constructor
    · rintro ⟨h1, h2, h3⟩
      exact ⟨⟨h1, h2⟩, h3⟩
    · rintro ⟨⟨h1, h2⟩, h3⟩
      exact ⟨h1, h2, h3⟩

theorem chain_append (s : State) (fin : Int → Bool → Prop) (l1 l2 : List Blk) :
    ∀ (a : Int) (p : Bool),
      Chain s fin a p (l1 ++ l2) ↔
        Seg s a p l1 ∧ Chain s fin (a + sumSizes l1) (lastUsed p l1) l2 := by
  induction l1 with
  | nil =>
    intro a p
    simp [Chain, Seg, sumSizes_nil, lastUsed_nil]
  | cons b rest ih =>
    intro a p
    have e : a + sumSizes (b :: rest) = a + b.size + sumSizes rest := by
      rw [sumSizes_cons]; ring
    rw [e, lastUsed_cons]
    unfold Seg at ih ⊢
    show BlockAt s a p b ∧ Chain s fin (a + b.size) b.used (rest ++ l2) ↔ _
    simp only [Chain]
    rw [ih (a + b.size) b.used]
    constructor
    · rintro ⟨h1, h2, h3⟩
      exact ⟨⟨h1, h2⟩, h3⟩
    · rintro ⟨⟨h1, h2⟩, h3⟩
      exact ⟨h1, h2, h3⟩

theorem seg_sum_nonneg (s : State) (l : List Blk) :
    ∀ (a : Int) (p : Bool), Seg s a p l → 0 ≤ sumSizes l := by
  induction l with
  | nil => intro a p _; simp [sumSizes_nil]
  | cons b rest ih =>
    intro a p h
    unfold Seg at h ih
    simp only [Chain] at h
    have := ih _ _ h.2
    have hb := h.1.1
    rw [sumSizes_cons]
    omega

theorem blockAt_frame (s t : State) (a : Int) (p : Bool) (b : Blk)
    (hm : ∀ x, a ≤ x → x < a + b.size → t.mem x = s.mem x) (h : BlockAt s a p b) :
    BlockAt t a p b := by
  obtain ⟨h1, h2, h3, h4⟩ := h
  refine ⟨h1, h2, ?_, ?_⟩
  · rw [hm a (le_refl _) (by omega)]; exact h3
  · intro hu
    rw [hm (a + b.size - 4) (by omega) (by omega)]
    exact h4 hu

theorem seg_frame (s t : State) (l : List Blk) :
    ∀ (a : Int) (p : Bool), (∀ x, a ≤ x → x < a + sumSizes l → t.mem x = s.mem x) →
      Seg s a p l → Seg t a p l := by
  induction l with
  | nil => intro a p _ _; simp [Seg, Chain]
  | cons b rest ih =>
    intro a p hm h
    unfold Seg at h ih ⊢
    simp only [Chain] at h ⊢
    have hnn := seg_sum_nonneg s rest _ _ h.2
    have hpos := h.1.1
    rw [sumSizes_cons] at hm
    refine ⟨blockAt_frame s t a p b (fun x hx1 hx2 => hm x hx1 (by omega)) h.1, ?_⟩
    exact ih _ _ (fun x hx1 hx2 => hm x (by omega) (by omega)) h.2

theorem layout_iff (s : State) (a : Int) (p : Bool) (l : List Blk) :
    Layout s a p l ↔ Seg s a p l ∧ a + sumSizes l = s.heapStart + s.allocsize ∧
      s.mem (s.heapStart + s.allocsize) = 1 := by
  unfold Layout
  rw [chain_iff]
  constructor
  · rintro ⟨h1, h2, h3⟩
    rw [h2] at h3
    exact ⟨h1, h2, h3⟩
  · rintro ⟨h1, h2, h3⟩
    rw [← h2] at h3
    exact ⟨h1, h2, h3⟩

theorem layout_append (s : State) (a : Int) (p : Bool) (l1 l2 : List Blk) :
    Layout s a p (l1 ++ l2) ↔
      Seg s a p l1 ∧ Layout s (a + sumSizes l1) (lastUsed p l1) l2 := by
  unfold Layout
  exact chain_append s _ l1 l2 a p

theorem layout_cons (s : State) (a : Int) (p : Bool) (b : Blk) (l : List Blk) :
    Layout s a p (b :: l) ↔ BlockAt s a p b ∧ Layout s (a + b.size) b.used l := by
  unfold Layout
  simp only [Chain]

theorem layout_frame (s t : State) (a : Int) (p : Bool) (l : List Blk)
    (hs : t.heapStart = s.heapStart) (ha : t.allocsize = s.allocsize)
    (hm : ∀ x, a ≤ x → t.mem x = s.mem x) (h : Layout s a p l) : Layout t a p l := by
  rw [layout_iff] at h ⊢
  obtain ⟨h1, h2, h3⟩ := h
  have hnn := seg_sum_nonneg s l a p h1
  refine ⟨seg_frame s t l a p (fun x hx _ => hm x hx) h1, by rw [hs, ha]; exact h2, ?_⟩
  rw [hs, ha, hm _ (by omega)]
  exact h3

theorem store_mem (s : State) (a v x : Int) :
    (store s a v).mem x = if x = a then v else s.mem x := rfl

theorem store_mem_same (s : State) (a v : Int) : (store s a v).mem a = v := by
  simp [store_mem]

theorem store_mem_other (s : State) (a v x : Int) (h : x ≠ a) :
    (store s a v).mem x = s.mem x := by
  simp [store_mem, h]

theorem tmod_of_nonneg (x n : Int) (hx : 0 ≤ x) (hn : 0 ≤ n) : Int.tmod x n = x % n :=
  Int.tmod_eq_emod hx hn

theorem freeHeap_both_used (s : State) (a sz w : Int)
    (hp : a + 4 ≠ 0) (hlo : s.heapStart ≤ a) (hhi : a ≤ s.heapStart + 4 * s.allocsize)
    (hsz : 0 < sz) (h8 : sz % 8 = 0) (hh : s.mem a = sz + 3)
    (hn : s.mem (a + sz) = w) (hw : Int.tmod w 8 ≠ 2) :
    freeHeap s (a + 4) =
      (store (store (store s a (sz + 2)) (a + sz - 4) sz) (a + sz) (w - 2), 0) := by
  have e : a + 4 - 4 = a := by ring
  have t4 : Int.tmod (sz + 3) 4 = 3 := by
    rw [tmod_of_nonneg _ _ (by omega) (by decide)]; omega
  have t8 : Int.tmod (sz + 3) 8 = 3 := by
    rw [tmod_of_nonneg _ _ (by omega) (by decide)]; omega
  have e3 : sz + 3 - 3 = sz := by ring
  have s8 : Int.tmod sz 8 = 0 := by
    rw [tmod_of_nonneg _ _ (by omega) (by decide)]; omega
  have hodd : ¬ ((sz + 3) % 2 = 0) := by omega
  have hr : ¬ (a < s.heapStart ∨ a > s.heapStart + 4 * s.allocsize) := by omega
  have e2 : sz + 3 - 1 = sz + 2 := by ring
  have m1 : (store (store s a (sz + 2)) (a + sz - 4) sz).mem (a + sz) = w := by
    rw [store_mem_other _ _ _ _ (by omega), store_mem_other _ _ _ _ (by omega), hn]
  unfold freeHeap
  simp only [e, hh, t4, t8, e3, s8, e2, if_neg hp, if_neg hodd, hn, if_neg hw, if_neg hr, m1]
  simp

theorem cursor_ite_mem (s : State) (c : Prop) [Decidable c] (q x : Int) :
    (if c then { s with recentlyAllocated := q } else s).mem x = s.mem x := by
  split <;> rfl

theorem freeHeap_prev_free (s : State) (a sz psz w : Int)
    (hp : a + 4 ≠ 0) (hlo : s.heapStart ≤ a) (hhi : a ≤ s.heapStart + 4 * s.allocsize)
    (hsz : 0 < sz) (h8 : sz % 8 = 0) (hh : s.mem a = sz + 1)
    (hpsz : 0 < psz) (hp8 : psz % 8 = 0) (hf : s.mem (a - 4) = psz)
    (hph : s.mem (a - psz) = psz + 2)
    (hn : s.mem (a + sz) = w) (hw : Int.tmod w 8 ≠ 2) :
    freeHeap s (a + 4) =
      (store (store (store
        (if s.recentlyAllocated = a then { s with recentlyAllocated := a - psz } else s)
        (a - psz) (psz + sz + 2)) (a + sz - 4) (psz + sz)) (a + sz) (w - 2), 0) := by
  have e : a + 4 - 4 = a := by ring
  have t4 : Int.tmod (sz + 1) 4 = 1 := by
    rw [tmod_of_nonneg _ _ (by omega) (by decide)]; omega
  have t8 : Int.tmod (sz + 1) 8 = 1 := by
    rw [tmod_of_nonneg _ _ (by omega) (by decide)]; omega
  have e3 : sz + 1 - 1 = sz := by ring
  have s8 : Int.tmod sz 8 = 0 := by
    rw [tmod_of_nonneg _ _ (by omega) (by decide)]; omega
  have hodd : ¬ ((sz + 1) % 2 = 0) := by omega
  have hr : ¬ (a < s.heapStart ∨ a > s.heapStart + 4 * s.allocsize) := by omega
  have e5 : psz + 2 + sz = psz + sz + 2 := by ring
  have t5 : Int.tmod (psz + sz + 2) 4 = 2 := by
    rw [tmod_of_nonneg _ _ (by omega) (by decide)]; omega
  have e6 : psz + sz + 2 - 2 = psz + sz := by ring
  unfold freeHeap
  simp only [e, hh, t4, t8, e3, s8, if_neg hp, if_neg hodd, hn, if_neg hw, if_neg hr,
    cursor_ite_mem, hf, hph, e5, store_mem_same, t5, e6]
  rw [store_mem_other _ _ _ _ (by omega), store_mem_other _ _ _ _ (by omega)]
  simp only [cursor_ite_mem, hn]
  simp

theorem freeHeap_next_free (s : State) (a sz nsz : Int)
    (hp : a + 4 ≠ 0) (hlo : s.heapStart ≤ a) (hhi : a ≤ s.heapStart + 4 * s.allocsize)
    (hsz : 0 < sz) (h8 : sz % 8 = 0) (hh : s.mem a = sz + 3)
    (hnsz : 0 < nsz) (hn8 : nsz % 8 = 0) (hn : s.mem (a + sz) = nsz + 2) :
    freeHeap s (a + 4) =
      (store (store (store (store s a (sz + 2)) (a + sz) nsz) a (sz + nsz + 2))
        (a + sz + nsz - 4) (sz + nsz), 0) := by
  have e : a + 4 - 4 = a := by ring
  have t4 : Int.tmod (sz + 3) 4 = 3 := by
    rw [tmod_of_nonneg _ _ (by omega) (by decide)]; omega
  have t8 : Int.tmod (sz + 3) 8 = 3 := by
    rw [tmod_of_nonneg _ _ (by omega) (by decide)]; omega
  have e3 : sz + 3 - 3 = sz := by ring
  have s8 : Int.tmod sz 8 = 0 := by
    rw [tmod_of_nonneg _ _ (by omega) (by decide)]; omega
  have hodd : ¬ ((sz + 3) % 2 = 0) := by omega
  have hr : ¬ (a < s.heapStart ∨ a > s.heapStart + 4 * s.allocsize) := by omega
  have e2 : sz + 3 - 1 = sz + 2 := by ring
  have n8 : Int.tmod (nsz + 2) 8 = 2 := by
    rw [tmod_of_nonneg _ _ (by omega) (by decide)]; omega
  have n4 : Int.tmod nsz 4 = 0 := by
    rw [tmod_of_nonneg _ _ (by omega) (by decide)]; omega
  have e7 : nsz + 2 - 2 = nsz := by ring
  have e8 : sz + 2 + (nsz - 0) = sz + nsz + 2 := by ring
  have e9 : a + sz + (nsz - 0) - 4 = a + sz + nsz - 4 := by ring
  have e10 : sz + (nsz - 0) = sz + nsz := by ring
  have m1 : (store s a (sz + 2)).mem (a + sz) = nsz + 2 := by
    rw [store_mem_other _ _ _ _ (by omega), hn]
  have m2 : (store (store s a (sz + 2)) (a + sz) nsz).mem a = sz + 2 := by
    rw [store_mem_other _ _ _ _ (by omega), store_mem_same]
  have m3 : (store (store (store s a (sz + 2)) (a + sz) nsz) a (sz + nsz + 2)).mem (a + sz)
      = nsz := by
    rw [store_mem_other _ _ _ _ (by omega), store_mem_same]
  unfold freeHeap
  simp only [e, hh, t4, t8, e3, s8, e2, if_neg hp, if_neg hodd, hn, if_neg hr, n8,
    m1, e7, store_mem_same, m2, n4, e8, m3, e9, e10]
  simp

theorem freeHeap_both_free (s : State) (a sz psz nsz : Int)
    (hp : a + 4 ≠ 0) (hlo : s.heapStart ≤ a) (hhi : a ≤ s.heapStart + 4 * s.allocsize)
    (hsz : 0 < sz) (h8 : sz % 8 = 0) (hh : s.mem a = sz + 1)
    (hpsz : 0 < psz) (hp8 : psz % 8 = 0) (hf : s.mem (a - 4) = psz)
    (hph : s.mem (a - psz) = psz + 2)
    (hnsz : 0 < nsz) (hn8 : nsz % 8 = 0) (hn : s.mem (a + sz) = nsz + 2) :
    freeHeap s (a + 4) =
      (store (store
        (if s.recentlyAllocated = a then { s with recentlyAllocated := a - psz } else s)
        (a - psz) (psz + sz + nsz + 2)) (a + sz + nsz - 4) (psz + sz + nsz), 0) := by
  have e : a + 4 - 4 = a := by ring
  have t4 : Int.tmod (sz + 1) 4 = 1 := by
    rw [tmod_of_nonneg _ _ (by omega) (by decide)]; omega
  have t8 : Int.tmod (sz + 1) 8 = 1 := by
    rw [tmod_of_nonneg _ _ (by omega) (by decide)]; omega
  have e3 : sz + 1 - 1 = sz := by ring
  have s8 : Int.tmod sz 8 = 0 := by
    rw [tmod_of_nonneg _ _ (by omega) (by decide)]; omega
  have hodd : ¬ ((sz + 1) % 2 = 0) := by omega
  have hr : ¬ (a < s.heapStart ∨ a > s.heapStart + 4 * s.allocsize) := by omega
  have n8 : Int.tmod (nsz + 2) 8 = 2 := by
    rw [tmod_of_nonneg _ _ (by omega) (by decide)]; omega
  have n4 : Int.tmod (nsz + 2) 4 = 2 := by
    rw [tmod_of_nonneg _ _ (by omega) (by decide)]; omega
  have e7 : nsz + 2 - 2 = nsz := by ring
  have e5 : psz + 2 + (sz + nsz) = psz + sz + nsz + 2 := by ring
  have t5 : Int.tmod (psz + sz + nsz + 2) 4 = 2 := by
    rw [tmod_of_nonneg _ _ (by omega) (by decide)]; omega
  have e6 : psz + sz + nsz + 2 - 2 = psz + sz + nsz := by ring
  have m1 : (store
      (if s.recentlyAllocated = a then { s with recentlyAllocated := a - psz } else s)
      (a - psz) (psz + sz + nsz + 2)).mem (a + sz) = nsz + 2 := by
    rw [store_mem_other _ _ _ _ (by omega), cursor_ite_mem, hn]
  unfold freeHeap
  simp only [e, hh, t4, t8, e3, s8, if_neg hp, if_neg hodd, hn, if_neg hr,
    cursor_ite_mem, hf, hph, n8, n4, e7, e5, m1, store_mem_same, t5, e6]
  simp

/-! The four coalescing cases of freeHeap -/
theorem headerWord_used_used (sz : Int) : headerWord sz true true = sz + 3 := by
  simp [headerWord]; ring

theorem headerWord_used_free (sz : Int) : headerWord sz true false = sz + 1 := by
  simp [headerWord]

theorem headerWord_free_used (sz : Int) : headerWord sz false true = sz + 2 := by
  simp [headerWord]

theorem blockAt_free_mk (s : State) (a sz : Int) (h1 : 0 < sz) (h2 : sz % 8 = 0)
    (hh : s.mem a = sz + 2) (hf : s.mem (a + sz - 4) = sz) :
    BlockAt s a true { size := sz, used := false } :=
  ⟨h1, h2, by rw [hh, headerWord_free_used], fun _ => ⟨hf, rfl⟩⟩

theorem blockAt_used_mk (s : State) (a : Int) (p : Bool) (q : Blk) (hu : q.used = true)
    (h1 : 0 < q.size) (h2 : q.size % 8 = 0) (hh : s.mem a = headerWord q.size true p) :
    BlockAt s a p q :=
  ⟨h1, h2, by rw [hh, hu], fun h => by rw [hu] at h; cases h⟩

theorem seg_append (s : State) (a : Int) (p : Bool) (l1 l2 : List Blk) :
    Seg s a p (l1 ++ l2) ↔ Seg s a p l1 ∧ Seg s (a + sumSizes l1) (lastUsed p l1) l2 := by
  unfold Seg
  exact chain_append s _ l1 l2 a p

theorem seg_single (s : State) (a : Int) (p : Bool) (b : Blk) :
    Seg s a p [b] ↔ BlockAt s a p b := by
  unfold Seg
  simp only [Chain, and_true]

theorem sumSizes_concat (l : List Blk) (b : Blk) : sumSizes (l ++ [b]) = sumSizes l + b.size := by
  rw [sumSizes_append, sumSizes_cons, sumSizes_nil]; ring

theorem pre_cases (pre : List Blk) :
    (lastUsed true pre = true ∧ dropFreeTail pre = pre ∧ freeTailSize pre = 0) ∨
      ∃ l q, pre = l ++ [q] ∧ q.used = false := by
  rcases List.eq_nil_or_concat pre with rfl | ⟨l, q, rfl⟩
  · exact Or.inl ⟨rfl, rfl, rfl⟩
  · rw [List.concat_eq_append]
    cases hu : q.used with
    | false => exact Or.inr ⟨l, q, rfl, hu⟩
    | true =>
      left
      simp [lastUsed, dropFreeTail, freeTailSize, hu]

/-! Request sizes that allocHeap does reject -/

theorem allocHeap_negative_or_oversized (fuel : Nat) (s : State) (size : Int)
    (h : size < 0 ∨ s.allocsize < size) : allocHeap fuel s size = some (s, 0) := by
  unfold allocHeap
  rcases h with h | h
  · rw [if_pos h]
  · by_cases h1 : size < 0
    · rw [if_pos h1]
    · rw [if_neg h1, if_pos (by omega)]

/-! initHeap, case by case -/

theorem initHeap_again (env : Env) (s : State) (sizeOfRegion : Int)
    (h : s.allocated_once ≠ 0) : initHeap env s sizeOfRegion = (s, -1) := by
  unfold initHeap
  rw [if_pos (fun e => h e.symm)]

theorem initHeap_nonpos (env : Env) (s : State) (sizeOfRegion : Int)
    (h : sizeOfRegion ≤ 0) : initHeap env s sizeOfRegion = (s, -1) := by
  unfold initHeap
  by_cases h1 : 0 ≠ s.allocated_once
  · rw [if_pos h1]
  · rw [if_neg h1, if_pos h]

theorem initHeap_open_fails (env : Env) (s : State) (sizeOfRegion : Int)
    (h1 : s.allocated_once = 0) (h2 : 0 < sizeOfRegion) (h3 : env.fd = -1) :
    initHeap env s sizeOfRegion =
      ({ s with allocsize := sizeOfRegion +
          Int.tmod (env.pagesize - Int.tmod sizeOfRegion env.pagesize) env.pagesize }, -1) := by
  unfold initHeap
  rw [if_neg (by rw [h1]; decide), if_neg (by omega)]
  dsimp only
  rw [if_pos h3]

theorem initHeap_mmap_fails (env : Env) (s : State) (sizeOfRegion : Int)
    (h1 : s.allocated_once = 0) (h2 : 0 < sizeOfRegion) (h3 : env.fd ≠ -1)
    (h4 : env.mmap_ptr = none) :
    initHeap env s sizeOfRegion =
      ({ s with
          allocsize := sizeOfRegion +
            Int.tmod (env.pagesize - Int.tmod sizeOfRegion env.pagesize) env.pagesize
          allocated_once := 0 }, -1) := by
  unfold initHeap
  rw [if_neg (by rw [h1]; decide), if_neg (by omega)]
  dsimp only
  rw [if_neg h3, h4]

theorem pad_facts (sz P : Int) (hsz : 0 < sz) (hP : 0 < P) :
    (sz + Int.tmod (P - Int.tmod sz P) P) % P = 0 ∧
      0 ≤ Int.tmod (P - Int.tmod sz P) P ∧ Int.tmod (P - Int.tmod sz P) P < P := by
  have hr0 : 0 ≤ sz % P := Int.emod_nonneg sz (by omega)
  have hr1 : sz % P < P := Int.emod_lt_of_pos sz hP
  have e1 : Int.tmod sz P = sz % P := Int.tmod_eq_emod (by omega) (by omega)
  rw [e1]
  have e2 : Int.tmod (P - sz % P) P = (P - sz % P) % P :=
    Int.tmod_eq_emod (by omega) (by omega)
  rw [e2]
  refine ⟨?_, Int.emod_nonneg _ (by omega), Int.emod_lt_of_pos _ hP⟩
  rw [Int.add_emod_emod]
  have e : sz + (P - sz % P) = P * (sz / P) + P := by
    have := Int.emod_add_ediv sz P
    omega
  rw [e, Int.add_emod_self, Int.mul_emod_right]

theorem rounded_ge_sixteen (A P sz : Int) (hP : 0 < P) (hP8 : P % 8 = 0) (hsz : 0 < sz)
    (hA : A % P = 0) (hge : sz ≤ A) (hbig : ¬ (P = 8 ∧ sz ≤ 8)) : 16 ≤ A := by
  have hdvd : P ∣ A := Int.dvd_of_emod_eq_zero hA
  have hPA : P ≤ A := Int.le_of_dvd (by omega) hdvd
  by_cases h8 : P = 8
  · subst h8
    omega
  · omega

/-! Pointers far outside the arena -/

theorem freeHeap_rejects_far_pointers (s : State) (p : Int)
    (h : p - 4 < s.heapStart ∨ s.heapStart + 4 * s.allocsize < p - 4) :
    freeHeap s p = (s, -1) := by
  unfold freeHeap
  dsimp only
  split_ifs <;> rfl

/-! The rounding of the request size and the outcome of the scan -/

theorem padBlocksize_spec (n : Nat) : ∀ (x : Int), 0 ≤ x → (8 - x % 8) % 8 ≤ n →
    padBlocksize n x = x + (8 - x % 8) % 8 := by
  induction n with
  | zero =>
    intro x hx hn
    have : (8 - x % 8) % 8 = 0 := by omega
    simp [padBlocksize, this]
  | succ k ih =>
    intro x hx hn
    rw [padBlocksize, Int.tmod_eq_emod hx (by decide)]
    by_cases h : x % 8 = 0
    · rw [if_neg (by simpa using h)]
      omega
    · rw [if_pos h, ih (x + 1) (by omega) (by omega)]
      omega

theorem requiredSize_spec (size : Int) (h : 0 ≤ size) :
    requiredSize size % 8 = 0 ∧ size + 4 ≤ requiredSize size ∧ requiredSize size < size + 12 := by
  unfold requiredSize
  rw [padBlocksize_spec 8 (size + 4) (by omega) (by omega)]
  omega

theorem allocLoop_trace (fuel : Nat) (s : State) (bs : Int) :
    ∀ (c : Int) (r : State × Int), allocLoop fuel s bs c = some r →
      r = (s, 0) ∨ ∃ a, s.mem a % 2 = 0 ∧ bs ≤ blockSize s a ∧ allocLoop 1 s bs a = some r := by
  induction fuel with
  | zero => intro c r h; simp [allocLoop] at h
  | succ n ih =>
    intro c r h
    by_cases hfree : s.mem c % 2 = 0
    · by_cases hfit : s.mem c - Int.tmod (s.mem c) 4 - bs ≥ 0
      · right
        refine ⟨c, hfree, by unfold blockSize; omega, ?_⟩
        rw [allocLoop] at h ⊢
        simp only [if_pos hfree, if_pos hfit] at h ⊢
        exact h
      · rw [allocLoop] at h
        simp only [if_pos hfree, if_neg hfit] at h
        exact ih _ _ h
    · rw [allocLoop] at h
      simp only [if_neg hfree] at h
      split_ifs at h with h1 h2 h2
      · left; exact (Option.some.inj h).symm
      · exact ih _ _ h
      · left; exact (Option.some.inj h).symm
      · exact ih _ _ h

theorem allocLoop_split (s : State) (bs a : Int) (hfree : s.mem a % 2 = 0)
    (hbig : bs < blockSize s a) (h8 : Int.tmod (s.mem a) 8 ≠ 0) :
    allocLoop 1 s bs a =
      some (store (store { store s a (bs + 3) with recentlyAllocated := a }
        (a + bs) (blockSize s a - bs + 2)) (a + bs + (blockSize s a - bs) - 4)
        (blockSize s a - bs), a + 4) := by
  unfold blockSize at hbig ⊢
  rw [allocLoop]
  have h1 : s.mem a - Int.tmod (s.mem a) 4 - bs ≥ 0 := by omega
  have h2 : ¬ (s.mem a - Int.tmod (s.mem a) 4 - bs = 0) := by omega
  have h3 : ¬ (Int.tmod (s.mem a) 8 = 0 ∧ a ≠ s.heapStart) := fun h => h8 h.1
  simp only [if_pos hfree, if_pos h1, if_neg h2, if_neg h3]

theorem allocHeap_trace (fuel : Nat) (s : State) (size : Int) (r : State × Int)
    (h : allocHeap fuel s size = some r) (hp : r.2 ≠ 0) :
    0 ≤ size ∧ size ≤ s.allocsize ∧
    ∃ a, s.mem a % 2 = 0 ∧ requiredSize size ≤ blockSize s a ∧
      allocLoop 1
        (if s.recentlyAllocated = 0 then { s with recentlyAllocated := s.heapStart } else s)
        (requiredSize size) a = some r := by
  unfold allocHeap at h
  by_cases h1 : size < 0
  · rw [if_pos h1] at h
    exact absurd (congrArg Prod.snd (Option.some.inj h)).symm hp
  · rw [if_neg h1] at h
    by_cases h2 : size > s.allocsize
    · rw [if_pos h2] at h
      exact absurd (congrArg Prod.snd (Option.some.inj h)).symm hp
    · rw [if_neg h2] at h
      dsimp only at h
      refine ⟨by omega, by omega, ?_⟩
      rcases allocLoop_trace _ _ _ _ _ h with hr | ⟨a, ha1, ha2, ha3⟩
      · rw [hr] at hp
        exact absurd rfl hp
      · refine ⟨a, ?_, ?_, ha3⟩
        · rw [← ha1]; split <;> rfl
        · unfold blockSize at ha2 ⊢
          have : ∀ x, (if s.recentlyAllocated = 0 then
              { s with recentlyAllocated := s.heapStart } else s).mem x = s.mem x := by
            intro x; split <;> rfl
          rw [this] at ha2
          exact ha2

theorem headerWord_free_parity (sz : Int) (p : Bool) (h8 : sz % 8 = 0) :
    headerWord sz false p % 2 = 0 := by
  unfold headerWord
  cases p <;> simp <;> omega

theorem allocLoop_one_found (s : State) (bs a : Int) (r : State × Int)
    (hfree : s.mem a % 2 = 0) (hfit : bs ≤ blockSize s a)
    (h : allocLoop 1 s bs a = some r) : r.2 = a + 4 ∧ r.1.recentlyAllocated = a := by
  unfold blockSize at hfit
  rw [allocLoop] at h
  have h1 : s.mem a - Int.tmod (s.mem a) 4 - bs ≥ 0 := by omega
  simp only [if_pos hfree, if_pos h1] at h
  split_ifs at h <;>
    · have := Option.some.inj h
      subst this
      exact ⟨rfl, rfl⟩

theorem isBlock_opsStale (a : Int) (h : IsBlock (stateAfter opsStale) a) : a = 65540 := by
  have hb0 : blockSize (stateAfter opsStale) 65540 = 4088 := by decide
  have hs : (stateAfter opsStale).heapStart = 65540 := by decide
  have ha : (stateAfter opsStale).allocsize = 4088 := by decide
  induction h with
  | first _ => exact hs
  | next a _ hlt ih =>
    subst ih
    rw [hb0, hs, ha] at hlt
    omega

/-! The arena invariant along runs that keep the cursor on a block -/

theorem seg_posSizes (s : State) (l : List Blk) :
    ∀ (a : Int) (p : Bool), Seg s a p l → PosSizes l := by
  induction l with
  | nil => intro a p _ b hb; cases hb
  | cons c rest ih =>
    intro a p h b hb
    unfold Seg at h ih
    simp only [Chain] at h
    rcases List.mem_cons.1 hb with rfl | hb
    · exact h.1.1
    · exact ih _ _ h.2 b hb

theorem posSizes_cons (b : Blk) (l : List Blk) : PosSizes (b :: l) ↔ 0 < b.size ∧ PosSizes l := by
  unfold PosSizes
  simp

theorem posSizes_append (l1 l2 : List Blk) :
    PosSizes (l1 ++ l2) ↔ PosSizes l1 ∧ PosSizes l2 := by
  unfold PosSizes
  simp only [List.mem_append]
  constructor
  · intro h
    exact ⟨fun b hb => h b (Or.inl hb), fun b hb => h b (Or.inr hb)⟩
  · rintro ⟨h1, h2⟩ b (hb | hb)
    · exact h1 b hb
    · exact h2 b hb

theorem posSizes_sum_nonneg (l : List Blk) (h : PosSizes l) : 0 ≤ sumSizes l := by
  induction l with
  | nil => simp [sumSizes_nil]
  | cons b rest ih =>
    rw [posSizes_cons] at h
    have := ih h.2
    rw [sumSizes_cons]
    omega

theorem blockAtOffset_neg (l : List Blk) (h : PosSizes l) :
    ∀ off, off < 0 → blockAtOffset l off = none := by
  induction l with
  | nil => intro off _; rfl
  | cons b rest ih =>
    intro off hoff
    rw [posSizes_cons] at h
    rw [blockAtOffset, if_neg (by omega)]
    exact ih h.2 _ (by omega)

theorem blockAtOffset_append_ge (pre r : List Blk) (h : PosSizes pre) :
    ∀ k, 0 ≤ k → blockAtOffset (pre ++ r) (sumSizes pre + k) = blockAtOffset r k := by
  induction pre with
  | nil => intro k _; simp [sumSizes_nil]
  | cons b rest ih =>
    intro k hk
    rw [posSizes_cons] at h
    have hnn := posSizes_sum_nonneg rest h.2
    rw [sumSizes_cons]
    show blockAtOffset (b :: (rest ++ r)) _ = _
    rw [blockAtOffset, if_neg (by omega)]
    rw [show b.size + sumSizes rest + k - b.size = sumSizes rest + k by ring]
    exact ih h.2 k hk

theorem blockAtOffset_append_lt (pre r : List Blk) (hr : PosSizes r) (hp : PosSizes pre) :
    ∀ k, k < sumSizes pre → blockAtOffset (pre ++ r) k = blockAtOffset pre k := by
  induction pre with
  | nil =>
    intro k hk
    rw [sumSizes_nil] at hk
    simp only [List.nil_append]
    rw [blockAtOffset_neg r hr k hk]
    rfl
  | cons b rest ih =>
    intro k hk
    rw [posSizes_cons] at hp
    rw [sumSizes_cons] at hk
    show blockAtOffset (b :: (rest ++ r)) _ = _
    rw [blockAtOffset, blockAtOffset]
    by_cases h0 : k = 0
    · rw [if_pos h0, if_pos h0]
    · rw [if_neg h0, if_neg h0]
      exact ih hp.2 _ (by omega)

theorem blockAtOffset_split (l : List Blk) :
    ∀ k b, blockAtOffset l k = some b →
      ∃ pre post, l = pre ++ b :: post ∧ k = sumSizes pre := by
  induction l with
  | nil => intro k b h; cases h
  | cons c rest ih =>
    intro k b h
    rw [blockAtOffset] at h
    by_cases h0 : k = 0
    · rw [if_pos h0] at h
      cases h
      exact ⟨[], rest, rfl, by rw [h0, sumSizes_nil]⟩
    · rw [if_neg h0] at h
      obtain ⟨pre, post, e, hk⟩ := ih _ _ h
      refine ⟨c :: pre, post, by rw [e]; rfl, ?_⟩
      rw [sumSizes_cons]
      omega

theorem blockAtOffset_mid (pre post : List Blk) (b : Blk) (h : PosSizes pre) :
    blockAtOffset (pre ++ b :: post) (sumSizes pre) = some b := by
  have := blockAtOffset_append_ge pre (b :: post) h 0 (le_refl _)
  rw [add_zero] at this
  rw [this, blockAtOffset, if_pos rfl]

/-- inside a block: no block starts there -/
theorem blockAtOffset_inside (pre post : List Blk) (b : Blk) (h : PosSizes (pre ++ b :: post))
    (k : Int) (h1 : sumSizes pre < k) (h2 : k < sumSizes pre + b.size) :
    blockAtOffset (pre ++ b :: post) k = none := by
  rw [posSizes_append, posSizes_cons] at h
  have := blockAtOffset_append_ge pre (b :: post) h.1 (k - sumSizes pre) (by omega)
  rw [show sumSizes pre + (k - sumSizes pre) = k by ring] at this
  rw [this, blockAtOffset, if_neg (by omega)]
  exact blockAtOffset_neg post h.2.2 _ (by omega)

theorem blockAtOffset_after (pre post : List Blk) (b : Blk) (h : PosSizes (pre ++ [b]))
    (k : Int) (hk : 0 ≤ k) :
    blockAtOffset (pre ++ b :: post) (sumSizes pre + b.size + k) = blockAtOffset post k := by
  have := blockAtOffset_append_ge (pre ++ [b]) post h k hk
  rw [sumSizes_concat] at this
  simpa using this

theorem tags_iff (s : State) (a : Int) (p : Bool) (l : List Blk) :
    Tags s a p l ↔ Seg s a p l ∧ a + sumSizes l = s.heapStart + s.allocsize ∧
      s.mem (s.heapStart + s.allocsize) = headerWord 0 true (lastUsed p l) := by
  unfold Tags
  rw [chain_iff]
  constructor
  · rintro ⟨h1, h2, h3⟩
    rw [h2] at h3
    exact ⟨h1, h2, h3⟩
  · rintro ⟨h1, h2, h3⟩
    rw [← h2] at h3
    exact ⟨h1, h2, h3⟩

theorem tags_append (s : State) (a : Int) (p : Bool) (l1 l2 : List Blk) :
    Tags s a p (l1 ++ l2) ↔
      Seg s a p l1 ∧ Tags s (a + sumSizes l1) (lastUsed p l1) l2 := by
  unfold Tags
  exact chain_append s _ l1 l2 a p

theorem tags_cons (s : State) (a : Int) (p : Bool) (b : Blk) (l : List Blk) :
    Tags s a p (b :: l) ↔ BlockAt s a p b ∧ Tags s (a + b.size) b.used l := by
  unfold Tags
  simp only [Chain]

theorem tags_nil (s : State) (a : Int) (p : Bool) :
    Tags s a p [] ↔ a = s.heapStart + s.allocsize ∧ s.mem a = headerWord 0 true p := by
  unfold Tags
  simp only [Chain]

theorem tags_frame (s t : State) (a : Int) (p : Bool) (l : List Blk)
    (hs : t.heapStart = s.heapStart) (ha : t.allocsize = s.allocsize)
    (hm : ∀ x, a ≤ x → t.mem x = s.mem x) (h : Tags s a p l) : Tags t a p l := by
  rw [tags_iff] at h ⊢
  obtain ⟨h1, h2, h3⟩ := h
  have hnn := seg_sum_nonneg s l a p h1
  refine ⟨seg_frame s t l a p (fun x hx _ => hm x hx) h1, by rw [hs, ha]; exact h2, ?_⟩
  rw [hs, ha, hm _ (by omega)]
  exact h3

/-- What follows a block that has just become free: the word right after it loses its
prev_allocated bit, everything behind is untouched. -/
theorem tags_clear_prev (s t : State) (n : Int) (l : List Blk)
    (hs : t.heapStart = s.heapStart) (ha : t.allocsize = s.allocsize)
    (hn : t.mem n = s.mem n - 2) (hm : ∀ x, n < x → t.mem x = s.mem x)
    (hu : ∀ q rest, l = q :: rest → q.used = true)
    (h : Tags s n true l) : Tags t n false l := by
  cases l with
  | nil =>
    rw [tags_nil] at h ⊢
    refine ⟨by rw [hs, ha]; exact h.1, ?_⟩
    rw [hn, h.2]
    simp [headerWord]
  | cons q rest =>
    have hq := hu q rest rfl
    rw [tags_cons] at h ⊢
    obtain ⟨⟨q1, q2, q3, _⟩, hrest⟩ := h
    refine ⟨blockAt_used_mk t n false q hq q1 q2 ?_, ?_⟩
    · rw [hn, q3, hq, headerWord_used_used, headerWord_used_free]; ring
    · exact tags_frame s t _ _ _ hs ha (fun x hx => hm x (by omega)) hrest

/-- What follows a block that has just become used. -/
theorem tags_set_prev (s t : State) (n : Int) (l : List Blk)
    (hs : t.heapStart = s.heapStart) (ha : t.allocsize = s.allocsize)
    (hn : t.mem n = s.mem n + 2) (hm : ∀ x, n < x → t.mem x = s.mem x)
    (h : Tags s n false l) : Tags t n true l := by
  cases l with
  | nil =>
    rw [tags_nil] at h ⊢
    refine ⟨by rw [hs, ha]; exact h.1, ?_⟩
    rw [hn, h.2]
    simp [headerWord]
  | cons q rest =>
    rw [tags_cons] at h ⊢
    obtain ⟨⟨q1, q2, q3, q4⟩, hrest⟩ := h
    have hq : q.used = true := by
      cases hu : q.used with
      | true => rfl
      | false => exact absurd (q4 hu).2 (by decide)
    refine ⟨blockAt_used_mk t n true q hq q1 q2 ?_, ?_⟩
    · rw [hn, q3, hq, headerWord_used_used, headerWord_used_free]; ring
    · exact tags_frame s t _ _ _ hs ha (fun x hx => hm x (by omega)) hrest

theorem arena_block (s : State) (l : List Blk) (k : Int) (b : Blk) (h : Arena s l)
    (hb : blockAtOffset l k = some b) :
    ∃ pre post, l = pre ++ b :: post ∧ k = sumSizes pre ∧ Seg s s.heapStart true pre ∧
      BlockAt s (s.heapStart + k) (lastUsed true pre) b ∧
      Tags s (s.heapStart + k + b.size) b.used post := by
  obtain ⟨pre, post, e, hk⟩ := blockAtOffset_split l k b hb
  obtain ⟨_, _, _, ht⟩ := h
  rw [e, tags_append, tags_cons, ← hk] at ht
  exact ⟨pre, post, e, hk, ht.1, ht.2.1, ht.2.2⟩

theorem arena_posSizes (s : State) (l : List Blk) (h : Arena s l) : PosSizes l :=
  seg_posSizes s l _ _ ((tags_iff s _ _ _).1 h.2.2.2).1

theorem arena_sum (s : State) (l : List Blk) (h : Arena s l) : sumSizes l = s.allocsize := by
  have := ((tags_iff s _ _ _).1 h.2.2.2).2.1
  omega

theorem arena_first (s : State) (l : List Blk) (h : Arena s l) :
    ∃ b rest, l = b :: rest := by
  cases l with
  | nil =>
    have := arena_sum s [] h
    have h3 := h.2.2.1
    rw [sumSizes_nil] at this
    omega
  | cons b rest => exact ⟨b, rest, rfl⟩

theorem allocLoop_exact (s : State) (bs a : Int) (hfree : s.mem a % 2 = 0)
    (heq : blockSize s a = bs) (hbs : bs ≠ 0) :
    allocLoop 1 s bs a =
      some (store { store s a (s.mem a + 1) with recentlyAllocated := a }
        (a + bs) (s.mem (a + bs) + 2), a + 4) := by
  unfold blockSize at heq
  rw [allocLoop]
  have h1 : s.mem a - Int.tmod (s.mem a) 4 - bs ≥ 0 := by omega
  have h2 : s.mem a - Int.tmod (s.mem a) 4 - bs = 0 := by omega
  simp only [if_pos hfree, if_pos h1, if_pos h2]
  have : (store s a (s.mem a + 1)).mem (a + bs) = s.mem (a + bs) :=
    store_mem_other _ _ _ _ (by omega)
  rw [this]

theorem blockSize_of_free_header (s : State) (a sz : Int) (h0 : 0 ≤ sz) (h8 : sz % 8 = 0)
    (hh : s.mem a = sz + 2) :
    s.mem a % 2 = 0 ∧ blockSize s a = sz ∧ Int.tmod (s.mem a) 8 ≠ 0 := by
  unfold blockSize
  rw [hh, tmod_of_nonneg _ _ (by omega) (by decide), tmod_of_nonneg _ _ (by omega) (by decide)]
  omega

theorem arena_place (s : State) (l : List Blk) (k bs : Int) (b : Blk) (r : State × Int)
    (h : Arena s l) (hb : blockAtOffset l k = some b) (hfree : b.used = false)
    (hbs : 0 < bs) (hbs8 : bs % 8 = 0) (hfit : bs ≤ b.size)
    (hr : allocLoop 1 s bs (s.heapStart + k) = some r) :
    ∃ pre post, l = pre ++ b :: post ∧ k = sumSizes pre ∧
      r.2 = s.heapStart + k + 4 ∧ r.1.recentlyAllocated = s.heapStart + k ∧
      r.1.heapStart = s.heapStart ∧ r.1.allocsize = s.allocsize ∧
      Arena r.1 (pre ++ (placed bs b ++ post)) := by
  obtain ⟨pre, post, e, hk, hpre, ⟨b1, b2, b3, b4⟩, hpost⟩ := arena_block s l k b h hb
  obtain ⟨h0, h4, hasz, _⟩ := h
  obtain ⟨b4, hpl⟩ := b4 hfree
  rw [hfree, hpl, headerWord_free_used] at b3
  rw [hfree] at hpost
  obtain ⟨f1, f2, f3⟩ := blockSize_of_free_header s _ b.size (by omega) b2 b3
  have hnn := seg_sum_nonneg s pre _ _ hpre
  refine ⟨pre, post, e, hk, ?_⟩
  by_cases hx : b.size = bs
  · -- exact fit
    rw [allocLoop_exact s bs _ f1 (by rw [f2]; exact hx) (by omega)] at hr
    have hr' := Option.some.inj hr
    subst hr'
    generalize hT : store { store s (s.heapStart + k) (s.mem (s.heapStart + k) + 1) with
        recentlyAllocated := s.heapStart + k } (s.heapStart + k + bs)
        (s.mem (s.heapStart + k + bs) + 2) = t
    have ths : t.heapStart = s.heapStart := by rw [← hT]; rfl
    have tas : t.allocsize = s.allocsize := by rw [← hT]; rfl
    have tcur : t.recentlyAllocated = s.heapStart + k := by rw [← hT]; rfl
    have hmem : ∀ x, t.mem x =
        if x = s.heapStart + k + bs then s.mem (s.heapStart + k + bs) + 2
        else if x = s.heapStart + k then s.mem (s.heapStart + k) + 1 else s.mem x := by
      intro x; rw [← hT]; rfl
    have hpl' : placed bs b = [{ size := bs, used := true }] := by
      unfold placed; rw [if_pos hx]
    refine ⟨rfl, tcur, ths, tas, by rw [ths]; exact h0, by rw [ths]; exact h4,
      by rw [tas]; exact hasz, ?_⟩
    rw [ths, hpl', tags_append, ← hk, hpl]
    show Seg t _ _ _ ∧ Tags t _ _ ({ size := bs, used := true } :: post)
    rw [tags_cons]
    dsimp only
    refine ⟨?_, blockAt_used_mk t _ _ _ rfl hbs hbs8 ?_, ?_⟩
    · refine seg_frame s _ pre _ _ (fun x _ hx2 => ?_) hpre
      rw [hmem, if_neg (by omega), if_neg (by omega)]
    · show t.mem _ = headerWord bs true true
      rw [hmem, if_neg (by omega), if_pos rfl, b3, headerWord_used_used]
      omega
    · refine tags_set_prev s t _ post ths tas ?_ ?_ (by rw [← hx]; exact hpost)
      · rw [hmem, if_pos rfl]
      · intro x hx2
        rw [hmem, if_neg (by omega), if_neg (by omega)]
  · -- split
    have hlt : bs < b.size := by omega
    rw [allocLoop_split s bs _ f1 (by rw [f2]; exact hlt) f3, f2] at hr
    have hr' := Option.some.inj hr
    subst hr'
    generalize hT : store (store { store s (s.heapStart + k) (bs + 3) with
        recentlyAllocated := s.heapStart + k } (s.heapStart + k + bs) (b.size - bs + 2))
        (s.heapStart + k + bs + (b.size - bs) - 4) (b.size - bs) = t
    have ths : t.heapStart = s.heapStart := by rw [← hT]; rfl
    have tas : t.allocsize = s.allocsize := by rw [← hT]; rfl
    have tcur : t.recentlyAllocated = s.heapStart + k := by rw [← hT]; rfl
    have hmem : ∀ x, t.mem x =
        if x = s.heapStart + k + bs + (b.size - bs) - 4 then b.size - bs
        else if x = s.heapStart + k + bs then b.size - bs + 2
        else if x = s.heapStart + k then bs + 3 else s.mem x := by
      intro x; rw [← hT]; rfl
    have hpl' : placed bs b =
        [{ size := bs, used := true }, { size := b.size - bs, used := false }] := by
      unfold placed; rw [if_neg hx]
    refine ⟨rfl, tcur, ths, tas, by rw [ths]; exact h0, by rw [ths]; exact h4,
      by rw [tas]; exact hasz, ?_⟩
    rw [ths, hpl', tags_append, ← hk, hpl]
    show Seg t _ _ _ ∧
      Tags t _ _ ({ size := bs, used := true } :: { size := b.size - bs, used := false } :: post)
    rw [tags_cons, tags_cons]
    dsimp only
    refine ⟨?_, blockAt_used_mk t _ _ _ rfl hbs hbs8 ?_,
      blockAt_free_mk t _ _ (by omega) (by omega) ?_ ?_, ?_⟩
    · refine seg_frame s _ pre _ _ (fun x _ hx2 => ?_) hpre
      rw [hmem, if_neg (by omega), if_neg (by omega), if_neg (by omega)]
    · show t.mem _ = headerWord bs true true
      rw [hmem, if_neg (by omega), if_neg (by omega), if_pos rfl, headerWord_used_used]
    · rw [hmem, if_neg (by omega), if_pos rfl]
    · rw [hmem, if_pos rfl]
    · rw [show s.heapStart + k + bs + (b.size - bs) = s.heapStart + k + b.size by ring]
      refine tags_frame s t _ _ _ ths tas (fun x hx2 => ?_) hpost
      rw [hmem, if_neg (by omega), if_neg (by omega), if_neg (by omega)]

theorem headerWord_read (sz : Int) (u p : Bool) (h0 : 0 ≤ sz) (h8 : sz % 8 = 0) :
    headerWord sz u p % 2 = (if u then 1 else 0) ∧
      headerWord sz u p - Int.tmod (headerWord sz u p) 4 = sz := by
  have hnn : 0 ≤ headerWord sz u p := by
    unfold headerWord; cases u <;> cases p <;> simp <;> omega
  rw [tmod_of_nonneg _ _ hnn (by decide)]
  unfold headerWord
  cases u <;> cases p <;> simp <;> omega

theorem arena_read_block (s : State) (l : List Blk) (k : Int) (b : Blk) (h : Arena s l)
    (hb : blockAtOffset l k = some b) :
    s.mem (s.heapStart + k) % 2 = (if b.used then 1 else 0) ∧
      blockSize s (s.heapStart + k) = b.size ∧ 0 < b.size ∧ b.size % 8 = 0 := by
  obtain ⟨pre, post, e, hk, hpre, ⟨b1, b2, b3, b4⟩, hpost⟩ := arena_block s l k b h hb
  obtain ⟨r1, r2⟩ := headerWord_read b.size b.used (lastUsed true pre) (by omega) b2
  unfold blockSize
  rw [b3]
  exact ⟨r1, r2, b1, b2⟩

theorem arena_read_end (s : State) (l : List Blk) (h : Arena s l) :
    s.mem (s.heapStart + s.allocsize) % 2 = 1 ∧ blockSize s (s.heapStart + s.allocsize) = 0 := by
  have h3 := ((tags_iff s _ _ _).1 h.2.2.2).2.2
  obtain ⟨r1, r2⟩ := headerWord_read 0 true (lastUsed true l) (le_refl _) (by decide)
  unfold blockSize
  rw [h3]
  exact ⟨by simpa using r1, r2⟩

theorem arena_next_pos (s : State) (l : List Blk) (k : Int) (b : Blk) (h : Arena s l)
    (hb : blockAtOffset l k = some b) :
    k + b.size = s.allocsize ∨ (blockAtOffset l (k + b.size)).isSome = true := by
  obtain ⟨pre, post, e, hk⟩ := blockAtOffset_split l k b hb
  have hpos := arena_posSizes s l h
  have hsum := arena_sum s l h
  cases post with
  | nil =>
    left
    rw [← hsum, e, sumSizes_append, sumSizes_cons, sumSizes_nil, hk]
    ring
  | cons q rest =>
    right
    rw [e] at hpos ⊢
    have hp : PosSizes (pre ++ [b]) := by
      rw [posSizes_append, posSizes_cons] at hpos ⊢
      exact ⟨hpos.1, hpos.2.1, fun x hx => by cases hx⟩
    have := blockAtOffset_after pre (q :: rest) b hp 0 (le_refl _)
    rw [add_zero, ← hk] at this
    rw [this, blockAtOffset, if_pos rfl]
    rfl

theorem arena_offset_zero (s : State) (l : List Blk) (h : Arena s l) :
    (blockAtOffset l 0).isSome = true := by
  obtain ⟨b, rest, e⟩ := arena_first s l h
  rw [e, blockAtOffset, if_pos rfl]
  rfl

theorem allocLoop_used_step (fuel : Nat) (s : State) (bs c : Int) (hodd : s.mem c % 2 ≠ 0) :
    allocLoop (fuel + 1) s bs c =
      if (if s.mem (c + blockSize s c) = 1 then s.heapStart else c + blockSize s c)
          = s.recentlyAllocated then some (s, 0)
      else allocLoop fuel s bs
        (if s.mem (c + blockSize s c) = 1 then s.heapStart else c + blockSize s c) := by
  unfold blockSize
  rw [allocLoop]
  simp only [if_neg hodd]

theorem allocLoop_found_step (fuel : Nat) (s : State) (bs c : Int) (heven : s.mem c % 2 = 0)
    (hfit : bs ≤ blockSize s c) :
    allocLoop (fuel + 1) s bs c = allocLoop 1 s bs c := by
  unfold blockSize at hfit
  have h1 : s.mem c - Int.tmod (s.mem c) 4 - bs ≥ 0 := by omega
  rw [allocLoop, allocLoop]
  simp only [if_pos heven, if_pos h1]

theorem arena_scan (s : State) (l : List Blk) (bs : Int) (h : Arena s l) (fuel : Nat) :
    ∀ (c : Int) (r : State × Int),
      (c = s.heapStart + s.allocsize ∨
        (blockAtOffset l (c - s.heapStart)).isSome = true) →
      allocLoop fuel s bs c = some r →
      r = (s, 0) ∨ ∃ k b, blockAtOffset l k = some b ∧ b.used = false ∧ bs ≤ b.size ∧
        allocLoop 1 s bs (s.heapStart + k) = some r := by
  induction fuel with
  | zero => intro c r _ hr; simp [allocLoop] at hr
  | succ n ih =>
    intro c r hc hr
    -- the position reached from a used block (or the end marker) of recorded size `sz`
    have hnext : ∀ sz, (c + sz = s.heapStart + s.allocsize ∨
        (blockAtOffset l (c + sz - s.heapStart)).isSome = true) →
        s.mem c % 2 ≠ 0 → blockSize s c = sz →
        r = (s, 0) ∨ ∃ k b, blockAtOffset l k = some b ∧ b.used = false ∧ bs ≤ b.size ∧
          allocLoop 1 s bs (s.heapStart + k) = some r := by
      intro sz hv hodd hsz
      rw [allocLoop_used_step n s bs c hodd, hsz] at hr
      by_cases hret : (if s.mem (c + sz) = 1 then s.heapStart else c + sz)
          = s.recentlyAllocated
      · rw [if_pos hret] at hr
        left
        exact (Option.some.inj hr).symm
      · rw [if_neg hret] at hr
        refine ih _ r ?_ hr
        by_cases hw : s.mem (c + sz) = 1
        · rw [if_pos hw]
          right
          rw [sub_self]
          exact arena_offset_zero s l h
        · rw [if_neg hw]
          exact hv
    rcases hc with hc | hc
    · -- at the end marker
      obtain ⟨e1, e2⟩ := arena_read_end s l h
      subst hc
      exact hnext 0 (Or.inl (by omega)) (by omega) e2
    · -- at a block
      obtain ⟨b, hb⟩ := Option.isSome_iff_exists.1 hc
      obtain ⟨r1, r2, r3, r4⟩ := arena_read_block s l _ b h hb
      rw [show s.heapStart + (c - s.heapStart) = c by ring] at r1 r2
      have hv : c + b.size = s.heapStart + s.allocsize ∨
          (blockAtOffset l (c + b.size - s.heapStart)).isSome = true := by
        rcases arena_next_pos s l _ b h hb with hn | hn
        · left; omega
        · right
          rw [show c + b.size - s.heapStart = c - s.heapStart + b.size by ring]
          exact hn
      cases hu : b.used with
      | true =>
        rw [hu] at r1
        have hodd : s.mem c % 2 ≠ 0 := by
          rw [r1]; simp
        exact hnext b.size hv hodd r2
      | false =>
        rw [hu] at r1
        have heven : s.mem c % 2 = 0 := by simpa using r1
        by_cases hfit : bs ≤ b.size
        · right
          refine ⟨c - s.heapStart, b, hb, hu, hfit, ?_⟩
          rw [show s.heapStart + (c - s.heapStart) = c by ring]
          rw [allocLoop_found_step n s bs c heven (by rw [r2]; exact hfit)] at hr
          exact hr
        · rw [allocLoop_skip_small n s bs c heven (by rw [r2]; omega), r2] at hr
          exact ih _ r hv hr

theorem tags_used_word (s : State) (n : Int) (l : List Blk) (h : Tags s n true l)
    (hu : ∀ q rest, l = q :: rest → q.used = true) :
    ∃ fsz, 0 ≤ fsz ∧ fsz % 8 = 0 ∧ s.mem n = fsz + 3 := by
  cases l with
  | nil =>
    rw [tags_nil] at h
    exact ⟨0, le_refl _, by decide, by rw [h.2, headerWord_used_used]⟩
  | cons q rest =>
    rw [tags_cons] at h
    obtain ⟨⟨q1, q2, q3, _⟩, _⟩ := h
    rw [hu q rest rfl, headerWord_used_used] at q3
    exact ⟨q.size, by omega, q2, q3⟩

theorem post_used_facts (post : List Blk) (hu : ∀ q rest, post = q :: rest → q.used = true) :
    freeHeadSize post = 0 ∧ dropFreeHead post = post := by
  cases post with
  | nil => exact ⟨rfl, rfl⟩
  | cons q rest =>
    have := hu q rest rfl
    simp [freeHeadSize, dropFreeHead, this]

theorem arena_release_UU (s : State) (pre post : List Blk) (b : Blk)
    (h : Arena s (pre ++ b :: post)) (hb : b.used = true)
    (hpl : lastUsed true pre = true) (hd : dropFreeTail pre = pre) (hz : freeTailSize pre = 0)
    (hu : ∀ q rest, post = q :: rest → q.used = true) :
    (freeHeap s (s.heapStart + sumSizes pre + 4)).2 = 0 ∧
      (freeHeap s (s.heapStart + sumSizes pre + 4)).1.heapStart = s.heapStart ∧
      Arena (freeHeap s (s.heapStart + sumSizes pre + 4)).1 (released pre b post) := by
  obtain ⟨h0, h4, hasz, hl⟩ := h
  rw [tags_append, tags_cons, hpl, hb] at hl
  obtain ⟨hpre, hbA, hpost⟩ := hl
  have hnn := seg_sum_nonneg s pre _ _ hpre
  have htot := ((tags_iff s _ _ _).1 hpost).2.1
  have hnn2 := seg_sum_nonneg s post _ _ ((tags_iff s _ _ _).1 hpost).1
  obtain ⟨b1, b2, b3, _⟩ := hbA
  rw [hb, headerWord_used_used] at b3
  obtain ⟨fsz, f1, f2, f3⟩ := tags_used_word s _ post hpost hu
  have hw : Int.tmod (fsz + 3) 8 ≠ 2 := by
    rw [tmod_of_nonneg _ _ (by omega) (by decide)]; omega
  rw [freeHeap_both_used s _ b.size (fsz + 3) (by omega) (by omega) (by omega) b1 b2 b3 f3 hw]
  generalize hT : store (store (store s (s.heapStart + sumSizes pre) (b.size + 2))
      (s.heapStart + sumSizes pre + b.size - 4) b.size)
      (s.heapStart + sumSizes pre + b.size) (fsz + 3 - 2) = t
  have ths : t.heapStart = s.heapStart := by rw [← hT]; rfl
  have tas : t.allocsize = s.allocsize := by rw [← hT]; rfl
  have hmem : ∀ x, t.mem x =
      if x = s.heapStart + sumSizes pre + b.size then fsz + 3 - 2
      else if x = s.heapStart + sumSizes pre + b.size - 4 then b.size
      else if x = s.heapStart + sumSizes pre then b.size + 2 else s.mem x := by
    intro x; rw [← hT]; rfl
  obtain ⟨p1, p2⟩ := post_used_facts post hu
  have hrel : released pre b post = pre ++ { size := b.size, used := false } :: post := by
    simp [released, hd, hz, p1, p2]
  refine ⟨rfl, ths, by rw [ths]; exact h0, by rw [ths]; exact h4, by rw [tas]; exact hasz, ?_⟩
  rw [ths, hrel, tags_append, tags_cons, hpl]
  dsimp only
  refine ⟨?_, blockAt_free_mk t _ _ b1 b2 ?_ ?_, ?_⟩
  · refine seg_frame s _ pre _ _ (fun x _ hx => ?_) hpre
    rw [hmem, if_neg (by omega), if_neg (by omega), if_neg (by omega)]
  · rw [hmem, if_neg (by omega), if_neg (by omega), if_pos rfl]
  · rw [hmem, if_neg (by omega), if_pos rfl]
  · refine tags_clear_prev s t _ post ths tas ?_ ?_ hu hpost
    · rw [hmem, if_pos rfl, f3]
    · intro x hx
      rw [hmem, if_neg (by omega), if_neg (by omega), if_neg (by omega)]

theorem arena_release_UF (s : State) (pre post : List Blk) (b q : Blk)
    (h : Arena s (pre ++ b :: q :: post)) (hb : b.used = true)
    (hpl : lastUsed true pre = true) (hd : dropFreeTail pre = pre) (hz : freeTailSize pre = 0)
    (hq : q.used = false) :
    (freeHeap s (s.heapStart + sumSizes pre + 4)).2 = 0 ∧
      (freeHeap s (s.heapStart + sumSizes pre + 4)).1.heapStart = s.heapStart ∧
      Arena (freeHeap s (s.heapStart + sumSizes pre + 4)).1 (released pre b (q :: post)) := by
  obtain ⟨h0, h4, hasz, hl⟩ := h
  rw [tags_append, tags_cons, tags_cons, hpl, hb] at hl
  obtain ⟨hpre, hbA, hqA, hrest⟩ := hl
  have hnn := seg_sum_nonneg s pre _ _ hpre
  have htot := ((tags_iff s _ _ _).1 hrest).2.1
  have hnn2 := seg_sum_nonneg s post _ _ ((tags_iff s _ _ _).1 hrest).1
  obtain ⟨b1, b2, b3, _⟩ := hbA
  obtain ⟨q1, q2, q3, q4⟩ := hqA
  rw [hb, headerWord_used_used] at b3
  rw [hq, headerWord_free_used] at q3
  rw [freeHeap_next_free s _ b.size q.size (by omega) (by omega) (by omega) b1 b2 b3 q1 q2 q3]
  generalize hT : store (store (store (store s (s.heapStart + sumSizes pre) (b.size + 2))
      (s.heapStart + sumSizes pre + b.size) q.size)
      (s.heapStart + sumSizes pre) (b.size + q.size + 2))
      (s.heapStart + sumSizes pre + b.size + q.size - 4) (b.size + q.size) = t
  have ths : t.heapStart = s.heapStart := by rw [← hT]; rfl
  have tas : t.allocsize = s.allocsize := by rw [← hT]; rfl
  have hmem : ∀ x, t.mem x =
      if x = s.heapStart + sumSizes pre + b.size + q.size - 4 then b.size + q.size
      else if x = s.heapStart + sumSizes pre then b.size + q.size + 2
      else if x = s.heapStart + sumSizes pre + b.size then q.size
      else if x = s.heapStart + sumSizes pre then b.size + 2 else s.mem x := by
    intro x; rw [← hT]; rfl
  have hrel : released pre b (q :: post) =
      pre ++ { size := b.size + q.size, used := false } :: post := by
    simp [released, hd, hz, freeHeadSize, dropFreeHead, hq]
  refine ⟨rfl, ths, by rw [ths]; exact h0, by rw [ths]; exact h4, by rw [tas]; exact hasz, ?_⟩
  rw [ths, hrel, tags_append, tags_cons, hpl]
  dsimp only
  refine ⟨?_, blockAt_free_mk t _ _ (by omega) (by omega) ?_ ?_, ?_⟩
  · refine seg_frame s _ pre _ _ (fun x _ hx => ?_) hpre
    rw [hmem, if_neg (by omega), if_neg (by omega), if_neg (by omega), if_neg (by omega)]
  · rw [hmem, if_neg (by omega), if_pos rfl]
  · rw [hmem, if_pos (by ring)]
  · rw [hq] at hrest
    rw [show s.heapStart + sumSizes pre + (b.size + q.size) =
      s.heapStart + sumSizes pre + b.size + q.size by ring]
    refine tags_frame s _ _ _ _ ths tas (fun x hx => ?_) hrest
    rw [hmem, if_neg (by omega), if_neg (by omega), if_neg (by omega), if_neg (by omega)]

theorem arena_release_FU (s : State) (l post : List Blk) (pq b : Blk)
    (h : Arena s ((l ++ [pq]) ++ b :: post)) (hb : b.used = true) (hpq : pq.used = false)
    (hu : ∀ q rest, post = q :: rest → q.used = true) :
    (freeHeap s (s.heapStart + sumSizes (l ++ [pq]) + 4)).2 = 0 ∧
      (freeHeap s (s.heapStart + sumSizes (l ++ [pq]) + 4)).1.heapStart = s.heapStart ∧
      Arena (freeHeap s (s.heapStart + sumSizes (l ++ [pq]) + 4)).1
        (released (l ++ [pq]) b post) := by
  have hpl : lastUsed true (l ++ [pq]) = false := by rw [lastUsed_concat, hpq]
  have hd : dropFreeTail (l ++ [pq]) = l := by simp [dropFreeTail, hpq]
  have hz : freeTailSize (l ++ [pq]) = pq.size := by simp [freeTailSize, hpq]
  have hsum := sumSizes_concat l pq
  obtain ⟨h0, h4, hasz, hl⟩ := h
  rw [tags_append, tags_cons, hpl, hb, seg_append, seg_single] at hl
  obtain ⟨⟨hpre, hpA⟩, hbA, hpost⟩ := hl
  have hnn := seg_sum_nonneg s l _ _ hpre
  have htot := ((tags_iff s _ _ _).1 hpost).2.1
  have hnn2 := seg_sum_nonneg s post _ _ ((tags_iff s _ _ _).1 hpost).1
  obtain ⟨p1, p2, p3, p4⟩ := hpA
  obtain ⟨p4, p5⟩ := p4 hpq
  obtain ⟨b1, b2, b3, _⟩ := hbA
  rw [hpq, p5, headerWord_free_used] at p3
  rw [hb, headerWord_used_free] at b3
  obtain ⟨fsz, f1, f2, f3⟩ := tags_used_word s _ post hpost hu
  have hw : Int.tmod (fsz + 3) 8 ≠ 2 := by
    rw [tmod_of_nonneg _ _ (by omega) (by decide)]; omega
  have ef : s.heapStart + sumSizes (l ++ [pq]) - 4 = s.heapStart + sumSizes l + pq.size - 4 := by
    omega
  have eh : s.heapStart + sumSizes (l ++ [pq]) - pq.size = s.heapStart + sumSizes l := by
    omega
  rw [freeHeap_prev_free s _ b.size pq.size (fsz + 3) (by omega) (by omega) (by omega)
    b1 b2 b3 p1 p2 (by rw [ef]; exact p4) (by rw [eh]; exact p3) f3 hw]
  generalize hT : store (store (store
      (if s.recentlyAllocated = s.heapStart + sumSizes (l ++ [pq]) then
        { s with recentlyAllocated := s.heapStart + sumSizes (l ++ [pq]) - pq.size } else s)
      (s.heapStart + sumSizes (l ++ [pq]) - pq.size) (pq.size + b.size + 2))
      (s.heapStart + sumSizes (l ++ [pq]) + b.size - 4) (pq.size + b.size))
      (s.heapStart + sumSizes (l ++ [pq]) + b.size) (fsz + 3 - 2) = t
  have ths : t.heapStart = s.heapStart := by
    rw [← hT]
    show (if _ then _ else s).heapStart = _
    split <;> rfl
  have tas : t.allocsize = s.allocsize := by
    rw [← hT]
    show (if _ then _ else s).allocsize = _
    split <;> rfl
  have hmem : ∀ x, t.mem x =
      if x = s.heapStart + sumSizes (l ++ [pq]) + b.size then fsz + 3 - 2
      else if x = s.heapStart + sumSizes (l ++ [pq]) + b.size - 4 then pq.size + b.size
      else if x = s.heapStart + sumSizes (l ++ [pq]) - pq.size then pq.size + b.size + 2
      else s.mem x := by
    intro x; rw [← hT]
    simp only [store_mem, cursor_ite_mem]
  obtain ⟨u1, u2⟩ := post_used_facts post hu
  have hrel : released (l ++ [pq]) b post =
      l ++ { size := pq.size + b.size, used := false } :: post := by
    simp [released, hd, hz, u1, u2]
  refine ⟨rfl, ths, by rw [ths]; exact h0, by rw [ths]; exact h4, by rw [tas]; exact hasz, ?_⟩
  rw [ths, hrel, tags_append, tags_cons, p5]
  dsimp only
  refine ⟨?_, blockAt_free_mk t _ _ (by omega) (by omega) ?_ ?_, ?_⟩
  · refine seg_frame s _ l _ _ (fun x _ hx => ?_) hpre
    rw [hmem, if_neg (by omega), if_neg (by omega), if_neg (by omega)]
  · rw [hmem, if_neg (by omega), if_neg (by omega), if_pos (by omega)]
  · rw [hmem, if_neg (by omega), if_pos (by omega)]
  · rw [show s.heapStart + sumSizes l + (pq.size + b.size) =
      s.heapStart + sumSizes (l ++ [pq]) + b.size by omega]
    refine tags_clear_prev s t _ post ths tas ?_ ?_ hu hpost
    · rw [hmem, if_pos rfl, f3]
    · intro x hx
      rw [hmem, if_neg (by omega), if_neg (by omega), if_neg (by omega)]

theorem arena_release_FF (s : State) (l post : List Blk) (pq b q : Blk)
    (h : Arena s ((l ++ [pq]) ++ b :: q :: post)) (hb : b.used = true)
    (hpq : pq.used = false) (hq : q.used = false) :
    (freeHeap s (s.heapStart + sumSizes (l ++ [pq]) + 4)).2 = 0 ∧
      (freeHeap s (s.heapStart + sumSizes (l ++ [pq]) + 4)).1.heapStart = s.heapStart ∧
      Arena (freeHeap s (s.heapStart + sumSizes (l ++ [pq]) + 4)).1
        (released (l ++ [pq]) b (q :: post)) := by
  have hpl : lastUsed true (l ++ [pq]) = false := by rw [lastUsed_concat, hpq]
  have hd : dropFreeTail (l ++ [pq]) = l := by simp [dropFreeTail, hpq]
  have hz : freeTailSize (l ++ [pq]) = pq.size := by simp [freeTailSize, hpq]
  have hsum := sumSizes_concat l pq
  obtain ⟨h0, h4, hasz, hl⟩ := h
  rw [tags_append, tags_cons, tags_cons, hpl, hb, seg_append, seg_single] at hl
  obtain ⟨⟨hpre, hpA⟩, hbA, hqA, hrest⟩ := hl
  have hnn := seg_sum_nonneg s l _ _ hpre
  have htot := ((tags_iff s _ _ _).1 hrest).2.1
  have hnn2 := seg_sum_nonneg s post _ _ ((tags_iff s _ _ _).1 hrest).1
  obtain ⟨p1, p2, p3, p4⟩ := hpA
  obtain ⟨p4, p5⟩ := p4 hpq
  obtain ⟨b1, b2, b3, _⟩ := hbA
  obtain ⟨q1, q2, q3, _⟩ := hqA
  rw [hpq, p5, headerWord_free_used] at p3
  rw [hb, headerWord_used_free] at b3
  rw [hq, headerWord_free_used] at q3
  have ef : s.heapStart + sumSizes (l ++ [pq]) - 4 = s.heapStart + sumSizes l + pq.size - 4 := by
    omega
  have eh : s.heapStart + sumSizes (l ++ [pq]) - pq.size = s.heapStart + sumSizes l := by
    omega
  rw [freeHeap_both_free s _ b.size pq.size q.size (by omega) (by omega) (by omega)
    b1 b2 b3 p1 p2 (by rw [ef]; exact p4) (by rw [eh]; exact p3) q1 q2 q3]
  generalize hT : store (store
      (if s.recentlyAllocated = s.heapStart + sumSizes (l ++ [pq]) then
        { s with recentlyAllocated := s.heapStart + sumSizes (l ++ [pq]) - pq.size } else s)
      (s.heapStart + sumSizes (l ++ [pq]) - pq.size) (pq.size + b.size + q.size + 2))
      (s.heapStart + sumSizes (l ++ [pq]) + b.size + q.size - 4)
      (pq.size + b.size + q.size) = t
  have ths : t.heapStart = s.heapStart := by
    rw [← hT]
    show (if _ then _ else s).heapStart = _
    split <;> rfl
  have tas : t.allocsize = s.allocsize := by
    rw [← hT]
    show (if _ then _ else s).allocsize = _
    split <;> rfl
  have hmem : ∀ x, t.mem x =
      if x = s.heapStart + sumSizes (l ++ [pq]) + b.size + q.size - 4 then
        pq.size + b.size + q.size
      else if x = s.heapStart + sumSizes (l ++ [pq]) - pq.size then
        pq.size + b.size + q.size + 2
      else s.mem x := by
    intro x; rw [← hT]
    simp only [store_mem, cursor_ite_mem]
  have hrel : released (l ++ [pq]) b (q :: post) =
      l ++ { size := pq.size + b.size + q.size, used := false } :: post := by
    simp [released, hd, hz, freeHeadSize, dropFreeHead, hq]
  refine ⟨rfl, ths, by rw [ths]; exact h0, by rw [ths]; exact h4, by rw [tas]; exact hasz, ?_⟩
  rw [ths, hrel, tags_append, tags_cons, p5]
  dsimp only
  refine ⟨?_, blockAt_free_mk t _ _ (by omega) (by omega) ?_ ?_, ?_⟩
  · refine seg_frame s _ l _ _ (fun x _ hx => ?_) hpre
    rw [hmem, if_neg (by omega), if_neg (by omega)]
  · rw [hmem, if_neg (by omega), if_pos (by omega)]
  · rw [hmem, if_pos (by omega)]
  · rw [hq] at hrest
    rw [show s.heapStart + sumSizes l + (pq.size + b.size + q.size) =
      s.heapStart + sumSizes (l ++ [pq]) + b.size + q.size by omega]
    refine tags_frame s _ _ _ _ ths tas (fun x hx => ?_) hrest
    rw [hmem, if_neg (by omega), if_neg (by omega)]

theorem arena_release (s : State) (pre post : List Blk) (b : Blk)
    (h : Arena s (pre ++ b :: post)) (hb : b.used = true) :
    (freeHeap s (s.heapStart + sumSizes pre + 4)).2 = 0 ∧
      (freeHeap s (s.heapStart + sumSizes pre + 4)).1.heapStart = s.heapStart ∧
      Arena (freeHeap s (s.heapStart + sumSizes pre + 4)).1 (released pre b post) := by
  have hpost : (∀ q rest, post = q :: rest → q.used = true) ∨
      ∃ q rest, post = q :: rest ∧ q.used = false := by
    cases post with
    | nil => left; intro q rest e; cases e
    | cons q rest =>
      cases hq : q.used with
      | true => left; intro q2 rest2 e; cases e; exact hq
      | false => right; exact ⟨q, rest, rfl, hq⟩
  rcases pre_cases pre with ⟨hpl, hd, hz⟩ | ⟨l, pq, rfl, hpq⟩
  · rcases hpost with hu | ⟨q, rest, rfl, hq⟩
    · exact arena_release_UU s pre post b h hb hpl hd hz hu
    · exact arena_release_UF s pre rest b q h hb hpl hd hz hq
  · rcases hpost with hu | ⟨q, rest, rfl, hq⟩
    · exact arena_release_FU s l post pq b h hb hpq hu
    · exact arena_release_FF s l rest pq b q h hb hpq hq

theorem blockAtOffset_mem (l : List Blk) : ∀ k b, blockAtOffset l k = some b → b ∈ l := by
  induction l with
  | nil => intro k b h; cases h
  | cons c rest ih =>
    intro k b h
    rw [blockAtOffset] at h
    by_cases h0 : k = 0
    · rw [if_pos h0] at h
      cases h
      exact List.mem_cons_self _ _
    · rw [if_neg h0] at h
      exact List.mem_cons_of_mem _ (ih _ _ h)

theorem middle_swap (X mid mid2 Y : List Blk) (hX : PosSizes X) (hm : PosSizes mid)
    (hm2 : PosSizes mid2) (hY : PosSizes Y) (hs : sumSizes mid = sumSizes mid2) (k : Int)
    (hout : k < sumSizes X ∨ sumSizes X + sumSizes mid ≤ k) :
    blockAtOffset (X ++ (mid ++ Y)) k = blockAtOffset (X ++ (mid2 ++ Y)) k := by
  rcases hout with h | h
  · rw [blockAtOffset_append_lt X _ ((posSizes_append _ _).2 ⟨hm, hY⟩) hX k h,
      blockAtOffset_append_lt X _ ((posSizes_append _ _).2 ⟨hm2, hY⟩) hX k h]
  · have e1 := blockAtOffset_append_ge (X ++ mid) Y ((posSizes_append _ _).2 ⟨hX, hm⟩)
      (k - sumSizes X - sumSizes mid) (by omega)
    have e2 := blockAtOffset_append_ge (X ++ mid2) Y ((posSizes_append _ _).2 ⟨hX, hm2⟩)
      (k - sumSizes X - sumSizes mid) (by omega)
    rw [sumSizes_append, List.append_assoc,
      show sumSizes X + sumSizes mid + (k - sumSizes X - sumSizes mid) = k by ring] at e1
    rw [sumSizes_append, List.append_assoc, ← hs,
      show sumSizes X + sumSizes mid + (k - sumSizes X - sumSizes mid) = k by ring] at e2
    rw [e1, e2]

theorem middle_inside (X mid Y : List Blk) (hX : PosSizes X) (hm : PosSizes mid)
    (hY : PosSizes Y) (k : Int) (h1 : sumSizes X ≤ k) (h2 : k < sumSizes X + sumSizes mid) :
    blockAtOffset (X ++ (mid ++ Y)) k = blockAtOffset mid (k - sumSizes X) := by
  have e1 := blockAtOffset_append_ge X (mid ++ Y) hX (k - sumSizes X) (by omega)
  rw [show sumSizes X + (k - sumSizes X) = k by ring] at e1
  rw [e1, blockAtOffset_append_lt mid Y hY hm _ (by omega)]

theorem used_in_free_frame (T H : List Blk) (b : Blk) (hT : ∀ x ∈ T, x.used = false)
    (hH : ∀ x ∈ H, x.used = false) :
    ∀ j c, blockAtOffset (T ++ b :: H) j = some c → c.used = true → j = sumSizes T := by
  induction T with
  | nil =>
    intro j c h hc
    rw [sumSizes_nil]
    simp only [List.nil_append] at h
    rw [blockAtOffset] at h
    by_cases h0 : j = 0
    · exact h0
    · rw [if_neg h0] at h
      have := hH c (blockAtOffset_mem H _ _ h)
      rw [this] at hc
      cases hc
  | cons f T2 ih =>
    intro j c h hc
    show j = sumSizes (f :: T2)
    rw [sumSizes_cons]
    change blockAtOffset (f :: (T2 ++ b :: H)) j = some c at h
    rw [blockAtOffset] at h
    by_cases h0 : j = 0
    · rw [if_pos h0] at h
      have hfc : f = c := Option.some.inj h
      have := hT f (List.mem_cons_self _ _)
      rw [hfc, hc] at this
      cases this
    · rw [if_neg h0] at h
      have := ih (fun x hx => hT x (List.mem_cons_of_mem _ hx)) _ _ h hc
      omega

theorem placed_sum (bs : Int) (b : Blk) : sumSizes (placed bs b) = b.size := by
  unfold placed
  split
  · rename_i h
    simp [sumSizes, h]
  · simp [sumSizes]

theorem placed_pos (bs : Int) (b : Blk) (h1 : 0 < bs) (h2 : bs ≤ b.size) :
    PosSizes (placed bs b) := by
  unfold placed
  split
  · intro x hx
    simp at hx
    subst hx
    exact h1
  · rename_i hne
    intro x hx
    simp at hx
    rcases hx with rfl | rfl
    · exact h1
    · show 0 < b.size - bs
      omega

theorem placed_head (bs : Int) (b : Blk) :
    ∃ tl, placed bs b = { size := bs, used := true } :: tl := by
  unfold placed
  split
  · exact ⟨_, rfl⟩
  · exact ⟨_, rfl⟩

theorem place_persist (pre post : List Blk) (b c : Blk) (bs k : Int)
    (hpos : PosSizes (pre ++ b :: post)) (h1 : 0 < bs) (h2 : bs ≤ b.size)
    (hfree : b.used = false) (hc : blockAtOffset (pre ++ b :: post) k = some c)
    (hu : c.used = true) :
    blockAtOffset (pre ++ (placed bs b ++ post)) k = some c := by
  rw [posSizes_append, posSizes_cons] at hpos
  obtain ⟨hX, hb, hY⟩ := hpos
  have hm : PosSizes [b] := by
    intro x hx; simp at hx; subst hx; exact hb
  have hs1 : sumSizes [b] = b.size := by simp [sumSizes]
  by_cases hin : sumSizes pre ≤ k ∧ k < sumSizes pre + b.size
  · exfalso
    have := middle_inside pre [b] post hX hm hY k hin.1 (by rw [hs1]; exact hin.2)
    simp only [List.singleton_append] at this
    rw [this] at hc
    have hmem := blockAtOffset_mem _ _ _ hc
    simp at hmem
    subst hmem
    rw [hfree] at hu
    cases hu
  · have := middle_swap pre [b] (placed bs b) post hX hm (placed_pos bs b h1 h2) hY
      (by rw [hs1, placed_sum]) k (by rw [hs1]; omega)
    simp only [List.singleton_append] at this
    rw [← this]
    exact hc

theorem pre_shape (pre : List Blk) :
    ∃ T, pre = dropFreeTail pre ++ T ∧ sumSizes T = freeTailSize pre ∧
      ∀ x ∈ T, x.used = false := by
  rcases pre_cases pre with ⟨_, hd, hz⟩ | ⟨l, q, rfl, hq⟩
  · exact ⟨[], by rw [hd]; simp, by rw [hz]; rfl, fun x hx => by cases hx⟩
  · refine ⟨[q], by simp [dropFreeTail, hq], by simp [freeTailSize, hq, sumSizes], ?_⟩
    intro x hx
    simp at hx
    subst hx
    exact hq

theorem post_shape (post : List Blk) :
    ∃ H, post = H ++ dropFreeHead post ∧ sumSizes H = freeHeadSize post ∧
      ∀ x ∈ H, x.used = false := by
  cases post with
  | nil => exact ⟨[], rfl, rfl, fun x hx => by cases hx⟩
  | cons q rest =>
    cases hq : q.used with
    | true =>
      refine ⟨[], by simp [dropFreeHead, hq], by simp [freeHeadSize, hq, sumSizes], ?_⟩
      intro x hx; cases hx
    | false =>
      refine ⟨[q], by simp [dropFreeHead, hq], by simp [freeHeadSize, hq, sumSizes], ?_⟩
      intro x hx
      simp at hx
      subst hx
      exact hq

theorem release_persist (pre post : List Blk) (b c : Blk) (k : Int)
    (hpos : PosSizes (pre ++ b :: post))
    (hc : blockAtOffset (pre ++ b :: post) k = some c) (hu : c.used = true)
    (hk : k ≠ sumSizes pre) :
    blockAtOffset (released pre b post) k = some c := by
  obtain ⟨T, eT, sT, fT⟩ := pre_shape pre
  obtain ⟨H, eH, sH, fH⟩ := post_shape post
  generalize hX : dropFreeTail pre = X at eT
  generalize hY : dropFreeHead post = Y at eH
  have hl : pre ++ b :: post = X ++ ((T ++ b :: H) ++ Y) := by
    rw [eT, eH]; simp
  rw [hl] at hc hpos
  rw [posSizes_append, posSizes_append] at hpos
  obtain ⟨pX, pM, pY⟩ := hpos
  have hsumpre : sumSizes pre = sumSizes X + sumSizes T := by
    rw [eT, sumSizes_append]
  have hsummid : sumSizes (T ++ b :: H) = sumSizes T + b.size + sumSizes H := by
    rw [sumSizes_append, sumSizes_cons]; ring
  have hbpos : 0 < b.size := pM b (by simp)
  have hTnn : 0 ≤ sumSizes T :=
    posSizes_sum_nonneg T (fun x hx => pM x (by simp [hx]))
  have hHnn : 0 ≤ sumSizes H :=
    posSizes_sum_nonneg H (fun x hx => pM x (by simp [hx]))
  have hrel : released pre b post =
      X ++ ([{ size := freeTailSize pre + b.size + freeHeadSize post, used := false }] ++ Y) := by
    unfold released
    rw [hX, hY]
    rfl
  rw [hrel]
  have pM2 : PosSizes
      [({ size := freeTailSize pre + b.size + freeHeadSize post, used := false } : Blk)] := by
    intro x hx
    simp at hx
    subst hx
    show 0 < freeTailSize pre + b.size + freeHeadSize post
    omega
  by_cases hin : sumSizes X ≤ k ∧ k < sumSizes X + sumSizes (T ++ b :: H)
  · exfalso
    rw [middle_inside X _ Y pX pM pY k hin.1 hin.2] at hc
    have := used_in_free_frame T H b fT fH _ _ hc hu
    omega
  · rw [← middle_swap X (T ++ b :: H) _ Y pX pM pM2 pY
      (by rw [hsummid, sT, sH]; simp [sumSizes]) k (by omega)]
    exact hc

theorem initHeap_success (env : Env) (s : State) (sizeOfRegion base : Int)
    (hsz : 0 < sizeOfRegion) (hP : 0 < env.pagesize) (hP8 : env.pagesize % 8 = 0)
    (hbig : ¬ (env.pagesize = 8 ∧ sizeOfRegion ≤ 8))
    (hfirst : s.allocated_once = 0) (hfd : env.fd ≠ -1) (hmap : env.mmap_ptr = some base) :
    (initHeap env s sizeOfRegion).2 = 0 ∧
      ((initHeap env s sizeOfRegion).1.allocsize + 8) % env.pagesize = 0 ∧
      sizeOfRegion ≤ (initHeap env s sizeOfRegion).1.allocsize + 8 ∧
      (initHeap env s sizeOfRegion).1.allocsize + 8 < sizeOfRegion + env.pagesize ∧
      (initHeap env s sizeOfRegion).1.heapStart = base + 4 ∧
      SingleFree (initHeap env s sizeOfRegion).1 := by
  obtain ⟨p1, p2, p3⟩ := pad_facts sizeOfRegion env.pagesize hsz hP
  have h16 := rounded_ge_sixteen _ env.pagesize sizeOfRegion hP hP8 hsz p1 (by omega) hbig
  unfold initHeap
  rw [if_neg (by rw [hfirst]; decide), if_neg (by omega)]
  dsimp only
  rw [if_neg hfd, hmap]
  dsimp only
  generalize Int.tmod (env.pagesize - Int.tmod sizeOfRegion env.pagesize) env.pagesize = pad at *
  refine ⟨rfl, ?_, ?_, ?_, rfl, ?_, ?_, ?_⟩
  · show (sizeOfRegion + pad - 8 + 8) % env.pagesize = 0
    rw [show sizeOfRegion + pad - 8 + 8 = sizeOfRegion + pad by ring]
    exact p1
  · show sizeOfRegion ≤ sizeOfRegion + pad - 8 + 8
    omega
  · show sizeOfRegion + pad - 8 + 8 < sizeOfRegion + env.pagesize
    omega
  · show (store _ _ _).mem (base + 4) = sizeOfRegion + pad - 8 + 2
    simp only [store]
    split_ifs <;> omega
  · show (store _ _ _).mem (base + 4 + (sizeOfRegion + pad - 8) - 4) = sizeOfRegion + pad - 8
    simp only [store]
    split_ifs <;> omega
  · show (store _ _ _).mem (base + 4 + (sizeOfRegion + pad - 8)) = 1
    simp only [store]
    split_ifs <;> omega

theorem initHeap_cursor (env : Env) (s : State) (sizeOfRegion : Int) :
    (initHeap env s sizeOfRegion).1.recentlyAllocated = s.recentlyAllocated := by
  unfold initHeap
  dsimp only
  split_ifs
  · rfl
  · rfl
  · rfl
  · split <;> rfl

theorem arena_init (env : Env) (sizeOfRegion : Int) (hok : env.ok) (hsz : 0 < sizeOfRegion) :
    Arena (initHeap env State.boot sizeOfRegion).1
      [{ size := (initHeap env State.boot sizeOfRegion).1.allocsize, used := false }] := by
  obtain ⟨hP, hP8, hfd, base, hmap, hb0, hbP⟩ := hok
  obtain ⟨_, f2, f3, f4, f5, g1, g2, g3⟩ :=
    initHeap_success env State.boot sizeOfRegion base hsz (by omega) hP8 (by omega) rfl hfd hmap
  generalize (initHeap env State.boot sizeOfRegion).1 = t at *
  have hdvd : (8 : Int) ∣ env.pagesize := Int.dvd_of_emod_eq_zero hP8
  have hb8 : base % 8 = 0 := by
    have := Int.emod_emod_of_dvd base hdvd
    rw [hbP] at this
    omega
  have ha8 : (t.allocsize + 8) % 8 = 0 := by
    have := Int.emod_emod_of_dvd (t.allocsize + 8) hdvd
    rw [f2] at this
    omega
  have hA : t.allocsize + 8 ≠ 8 := by
    intro he
    have hd : env.pagesize ∣ t.allocsize + 8 := Int.dvd_of_emod_eq_zero f2
    have := Int.le_of_dvd (by omega) hd
    omega
  refine ⟨by omega, by omega, by omega, ?_⟩
  rw [tags_cons, tags_nil]
  dsimp only
  exact ⟨blockAt_free_mk t _ _ (by omega) (by omega) g1 g2, rfl, by rw [g3]; rfl⟩

theorem seg_sum_mod8 (s : State) (l : List Blk) :
    ∀ (a : Int) (p : Bool), Seg s a p l → sumSizes l % 8 = 0 := by
  induction l with
  | nil => intro a p _; rfl
  | cons b rest ih =>
    intro a p h
    unfold Seg at h ih
    simp only [Chain] at h
    have := ih _ _ h.2
    have hb := h.1.2.1
    rw [sumSizes_cons]
    omega

theorem isBlock_offset (s : State) (l : List Blk) (h : Arena s l) (a : Int)
    (hb : IsBlock s a) : (blockAtOffset l (a - s.heapStart)).isSome = true := by
  induction hb with
  | first _ =>
    rw [sub_self]
    exact arena_offset_zero s l h
  | next c _ hlt ih =>
    obtain ⟨b, hbk⟩ := Option.isSome_iff_exists.1 ih
    obtain ⟨_, r2, _, _⟩ := arena_read_block s l _ b h hbk
    rw [show s.heapStart + (c - s.heapStart) = c by ring] at r2
    rw [r2] at hlt ⊢
    rcases arena_next_pos s l _ b h hbk with hn | hn
    · omega
    · rw [show c + b.size - s.heapStart = c - s.heapStart + b.size by ring]
      exact hn

theorem arena_same_mem (s t : State) (l : List Blk) (hs : t.heapStart = s.heapStart)
    (ha : t.allocsize = s.allocsize) (hm : ∀ x, t.mem x = s.mem x) (h : Arena s l) :
    Arena t l := by
  obtain ⟨h0, h4, h1, ht⟩ := h
  exact ⟨by rw [hs]; exact h0, by rw [hs]; exact h4, by rw [ha]; exact h1,
    by rw [hs]; exact tags_frame s t _ _ _ hs ha (fun x _ => hm x) ht⟩

theorem runInv_alloc (s : State) (live : List Int) (fuel : Nat) (size : Int)
    (r : State × Int) (hinv : RunInv s live) (hr : allocHeap fuel s size = some r) :
    RunInv r.1 (if r.2 = 0 then live else r.2 :: live) := by
  obtain ⟨l, hA, hcur, hlive, hnd⟩ := hinv
  unfold allocHeap at hr
  by_cases h1 : size < 0
  · rw [if_pos h1] at hr
    have := Option.some.inj hr
    subst this
    exact ⟨l, hA, hcur, hlive, hnd⟩
  rw [if_neg h1] at hr
  by_cases h2 : size > s.allocsize
  · rw [if_pos h2] at hr
    have := Option.some.inj hr
    subst this
    exact ⟨l, hA, hcur, hlive, hnd⟩
  rw [if_neg h2] at hr
  dsimp only at hr
  obtain ⟨q1, q2, q3⟩ := requiredSize_spec size (by omega)
  generalize hs1 : (if s.recentlyAllocated = 0 then
    { s with recentlyAllocated := s.heapStart } else s) = s1 at hr
  have e1 : s1.heapStart = s.heapStart := by rw [← hs1]; split <;> rfl
  have e2 : s1.allocsize = s.allocsize := by rw [← hs1]; split <;> rfl
  have e3 : ∀ x, s1.mem x = s.mem x := by intro x; rw [← hs1]; split <;> rfl
  have hA1 : Arena s1 l := arena_same_mem s s1 l e1 e2 e3 hA
  have hc1 : (blockAtOffset l (s1.recentlyAllocated - s1.heapStart)).isSome = true := by
    rw [← hs1]
    by_cases hz : s.recentlyAllocated = 0
    · rw [if_pos hz]
      show (blockAtOffset l (s.heapStart - s.heapStart)).isSome = true
      rw [sub_self]
      exact arena_offset_zero s l hA
    · rw [if_neg hz]
      rcases hcur with hc | hc
      · exact absurd hc hz
      · exact hc
  rcases arena_scan s1 l _ hA1 fuel _ r (Or.inr hc1) hr with hnull | ⟨k, b, hb, hfree, hfit, hpl⟩
  · subst hnull
    refine ⟨l, hA1, Or.inr hc1, ?_, hnd⟩
    intro q hq
    show ∃ b, blockAtOffset l (q - 4 - s1.heapStart) = some b ∧ b.used = true
    rw [e1]
    exact hlive q hq
  · obtain ⟨pre, post, e, hk, g1, g2, g3, g4, g5⟩ :=
      arena_place s1 l k _ b r hA1 hb hfree (by omega) q1 hfit hpl
    have hpos := arena_posSizes s l hA
    have hknn : 0 ≤ k := by
      rw [hk]
      rw [e, posSizes_append] at hpos
      exact posSizes_sum_nonneg pre hpos.1
    have h0 := hA.1
    have hne : r.2 ≠ 0 := by rw [g1, e1]; omega
    rw [if_neg hne]
    have hg3 : r.1.heapStart = s.heapStart := by rw [g3, e1]
    refine ⟨_, g5, Or.inr ?_, ?_, ?_⟩
    · rw [g2, g3, show s1.heapStart + k - s1.heapStart = k by ring, hk]
      obtain ⟨tl, htl⟩ := placed_head (requiredSize size) b
      rw [htl]
      rw [e, posSizes_append] at hpos
      show (blockAtOffset (pre ++ { size := requiredSize size, used := true } :: (tl ++ post))
        (sumSizes pre)).isSome = true
      rw [blockAtOffset_mid pre _ _ hpos.1]
      rfl
    · intro q hq
      rcases List.mem_cons.1 hq with hq | hq
      · rw [hq, g1, g3, show s1.heapStart + k + 4 - 4 - s1.heapStart = k by ring, hk]
        obtain ⟨tl, htl⟩ := placed_head (requiredSize size) b
        rw [htl]
        rw [e, posSizes_append] at hpos
        refine ⟨{ size := requiredSize size, used := true }, ?_, rfl⟩
        show blockAtOffset (pre ++ { size := requiredSize size, used := true } :: (tl ++ post))
          (sumSizes pre) = _
        exact blockAtOffset_mid pre _ _ hpos.1
      · obtain ⟨c, hc, hu⟩ := hlive q hq
        rw [hg3]
        rw [e] at hc hpos
        exact ⟨c, place_persist pre post b c _ _ hpos (by omega) hfit hfree hc hu, hu⟩
    · refine List.nodup_cons.2 ⟨?_, hnd⟩
      intro hmem
      obtain ⟨c, hc, hu⟩ := hlive _ hmem
      rw [g1, e1, show s.heapStart + k + 4 - 4 - s.heapStart = k by ring, hb] at hc
      have := Option.some.inj hc
      rw [← this, hfree] at hu
      cases hu

theorem runInv_free (s : State) (live : List Int) (ptr : Int) (hinv : RunInv s live)
    (hp : ptr ∈ live) (hcok : CursorOk (freeHeap s ptr).1) :
    RunInv (freeHeap s ptr).1 (if (freeHeap s ptr).2 = 0 then live.erase ptr else live) := by
  obtain ⟨l, hA, _, hlive, hnd⟩ := hinv
  obtain ⟨b, hb, hu⟩ := hlive ptr hp
  obtain ⟨pre, post, e, hk⟩ := blockAtOffset_split l _ b hb
  have hptr : ptr = s.heapStart + sumSizes pre + 4 := by omega
  have hpos := arena_posSizes s l hA
  rw [e] at hA hpos
  obtain ⟨r1, r2, r3⟩ := arena_release s pre post b hA hu
  rw [← hptr] at r1 r2 r3
  rw [if_pos r1]
  refine ⟨_, r3, ?_, ?_, hnd.erase ptr⟩
  · rcases hcok with hc | hc
    · exact Or.inl hc
    · exact Or.inr (isBlock_offset _ _ r3 _ hc)
  · intro q hq
    have hq2 := (List.Nodup.mem_erase_iff hnd).1 hq
    obtain ⟨c, hc, hcu⟩ := hlive q hq2.2
    rw [r2]
    rw [e] at hc
    exact ⟨c, release_persist pre post b c _ hpos hc hcu (by omega), hcu⟩

theorem reachableOk_runInv (s : State) (live : List Int) (h : ReachableOk s live) :
    RunInv s live := by
  induction h with
  | init env sizeOfRegion hok hsz _ =>
    refine ⟨_, arena_init env sizeOfRegion hok hsz, Or.inl ?_, ?_, List.nodup_nil⟩
    · rw [initHeap_cursor]; rfl
    · intro q hq; cases hq
  | alloc s live fuel size r _ hr ih => exact runInv_alloc s live fuel size r ih hr
  | free s live ptr _ hp hc ih => exact runInv_free s live ptr ih hp hc

theorem allocHeap_fuel_le (n m : Nat) (s : State) (size : Int) (r : State × Int)
    (h : allocHeap n s size = some r) (hnm : n ≤ m) : allocHeap m s size = some r := by
  induction m with
  | zero =>
    have : n = 0 := by omega
    subst this
    exact h
  | succ k ih =>
    by_cases hk : n ≤ k
    · exact allocHeap_fuel_succ k s size r (ih hk)
    · have : n = k + 1 := by omega
      subst this
      exact h

theorem step_fuel_le (n m : Nat) (c c2 : State × List Int) (op : Op)
    (h : step n c op = some c2) (hnm : n ≤ m) : step m c op = some c2 := by
  cases op with
  | alloc size =>
    unfold step at h ⊢
    dsimp only at h ⊢
    cases hr : allocHeap n c.1 size with
    | none => rw [hr] at h; cases h
    | some r =>
      rw [hr] at h
      rw [allocHeap_fuel_le n m c.1 size r hr hnm]
      exact h
  | free ptr => exact h

theorem run_fuel_le (n m : Nat) (hnm : n ≤ m) (ops : List Op) :
    ∀ (c c2 : State × List Int), run n c ops = some c2 → run m c ops = some c2 := by
  induction ops with
  | nil => intro c c2 h; exact h
  | cons op rest ih =>
    intro c c2 h
    rw [run] at h ⊢
    cases hs : step n c op with
    | none => rw [hs] at h; cases h
    | some c1 =>
      rw [hs] at h
      rw [step_fuel_le n m c c1 op hs hnm]
      exact ih c1 c2 h

theorem run_snoc (n : Nat) (ops : List Op) (op : Op) :
    ∀ (c c1 c2 : State × List Int), run n c ops = some c1 → step n c1 op = some c2 →
      run n c (ops ++ [op]) = some c2 := by
  induction ops with
  | nil =>
    intro c c1 c2 h1 h2
    have := Option.some.inj h1
    subst this
    show run n c [op] = some c2
    rw [run, h2]
    rfl
  | cons o rest ih =>
    intro c c1 c2 h1 h2
    rw [run] at h1
    show run n c (o :: (rest ++ [op])) = some c2
    rw [run]
    cases hs : step n c o with
    | none => rw [hs] at h1; cases h1
    | some c3 =>
      rw [hs] at h1
      exact ih c3 c1 c2 h1 h2

theorem reachableOk_reachable (s : State) (live : List Int) (h : ReachableOk s live) :
    Reachable s live := by
  induction h with
  | init env sizeOfRegion hok hsz hlt =>
    obtain ⟨hP, hP8, hfd, base, hmap, hb0, hbP⟩ := hok
    have := (initHeap_success env State.boot sizeOfRegion base hsz (by omega) hP8 (by omega) rfl
      hfd hmap).1
    exact ⟨env, sizeOfRegion, 0, [], ⟨hP, hP8, hfd, base, hmap, hb0, hbP⟩, hsz, hlt, this, rfl⟩
  | alloc s live fuel size r _ hr ih =>
    obtain ⟨env, sz, n, ops, h1, h2, h3, h4, h5⟩ := ih
    refine ⟨env, sz, max n fuel, ops ++ [Op.alloc size], h1, h2, h3, h4, ?_⟩
    refine run_snoc _ ops _ _ (s, live) _ (run_fuel_le n _ (le_max_left _ _) ops _ _ h5) ?_
    unfold step
    dsimp only
    rw [allocHeap_fuel_le fuel _ s size r hr (le_max_right _ _)]
  | free s live ptr _ hp _ ih =>
    obtain ⟨env, sz, n, ops, h1, h2, h3, h4, h5⟩ := ih
    refine ⟨env, sz, n, ops ++ [Op.free ptr], h1, h2, h3, h4, ?_⟩
    refine run_snoc _ ops _ _ (s, live) _ h5 ?_
    unfold step
    dsimp only
    rw [if_pos hp]

theorem size_not_multiple_of_8_after_stale_cursor :
    ∃ s live a, Reachable s live ∧ IsBlock s a ∧ blockSize s a % 8 ≠ 0 := by
  refine ⟨_, _, _, reachable_stateAfter opsOddSize (by decide),
    IsBlock.next _ (IsBlock.first (by decide)) (by decide), by decide⟩

/-! Releasing a block, whatever the prev_allocated bit of the end-marker word -/

theorem blocks_iff (s : State) (a : Int) (p : Bool) (l : List Blk) :
    Blocks s a p l ↔ Seg s a p l ∧ a + sumSizes l = s.heapStart + s.allocsize ∧
      s.mem (s.heapStart + s.allocsize) % 2 = 1 := by
  unfold Blocks
  rw [chain_iff]
  constructor
  · rintro ⟨h1, h2, h3⟩
    rw [h2] at h3
    exact ⟨h1, h2, h3⟩
  · rintro ⟨h1, h2, h3⟩
    rw [← h2] at h3
    exact ⟨h1, h2, h3⟩

theorem blocks_append (s : State) (a : Int) (p : Bool) (l1 l2 : List Blk) :
    Blocks s a p (l1 ++ l2) ↔
      Seg s a p l1 ∧ Blocks s (a + sumSizes l1) (lastUsed p l1) l2 := by
  unfold Blocks
  exact chain_append s _ l1 l2 a p

theorem blocks_cons (s : State) (a : Int) (p : Bool) (b : Blk) (l : List Blk) :
    Blocks s a p (b :: l) ↔ BlockAt s a p b ∧ Blocks s (a + b.size) b.used l := by
  unfold Blocks
  simp only [Chain]

theorem blocks_nil (s : State) (a : Int) (p : Bool) :
    Blocks s a p [] ↔ a = s.heapStart + s.allocsize ∧ s.mem a % 2 = 1 := by
  unfold Blocks
  simp only [Chain]

theorem blocks_frame (s t : State) (a : Int) (p : Bool) (l : List Blk)
    (hs : t.heapStart = s.heapStart) (ha : t.allocsize = s.allocsize)
    (hm : ∀ x, a ≤ x → t.mem x = s.mem x) (h : Blocks s a p l) : Blocks t a p l := by
  rw [blocks_iff] at h ⊢
  obtain ⟨h1, h2, h3⟩ := h
  have hnn := seg_sum_nonneg s l a p h1
  refine ⟨seg_frame s t l a p (fun x hx _ => hm x hx) h1, by rw [hs, ha]; exact h2, ?_⟩
  rw [hs, ha, hm _ (by omega)]
  exact h3

/-- The word right after a block in use is never taken for the header of a free block. -/
theorem blocks_next_word (s : State) (n : Int) (l : List Blk) (h : Blocks s n true l)
    (hu : ∀ q rest, l = q :: rest → q.used = true) : Int.tmod (s.mem n) 8 ≠ 2 := by
  cases l with
  | nil =>
    rw [blocks_nil] at h
    intro hc
    have := Int.tmod_add_tdiv (s.mem n) 8
    omega
  | cons q rest =>
    rw [blocks_cons] at h
    obtain ⟨⟨q1, q2, q3, _⟩, _⟩ := h
    rw [hu q rest rfl, headerWord_used_used] at q3
    rw [q3, tmod_of_nonneg _ _ (by omega) (by decide)]
    omega

/-- What follows a block that has just become free: the word right after it loses 2 (the
prev_allocated bit of a header), everything behind is untouched. -/
theorem blocks_clear_prev (s t : State) (n : Int) (l : List Blk)
    (hs : t.heapStart = s.heapStart) (ha : t.allocsize = s.allocsize)
    (hn : t.mem n = s.mem n - 2) (hm : ∀ x, n < x → t.mem x = s.mem x)
    (hu : ∀ q rest, l = q :: rest → q.used = true)
    (h : Blocks s n true l) : Blocks t n false l := by
  cases l with
  | nil =>
    rw [blocks_nil] at h ⊢
    refine ⟨by rw [hs, ha]; exact h.1, ?_⟩
    rw [hn]
    omega
  | cons q rest =>
    have hq := hu q rest rfl
    rw [blocks_cons] at h ⊢
    obtain ⟨⟨q1, q2, q3, _⟩, hrest⟩ := h
    refine ⟨blockAt_used_mk t n false q hq q1 q2 ?_, ?_⟩
    · rw [hn, q3, hq, headerWord_used_used, headerWord_used_free]; ring
    · exact blocks_frame s t _ _ _ hs ha (fun x hx => hm x (by omega)) hrest

theorem wellFormed_invariants (s : State) (l : List Blk) (h : WellFormed s l) :
    Invariants s l := by
  obtain ⟨h0, hl⟩ := h
  rw [layout_iff] at hl
  refine ⟨h0, (blocks_iff _ _ _ _).2 ⟨hl.1, hl.2.1, ?_⟩⟩
  rw [hl.2.2]
  decide

theorem arena_invariants (s : State) (l : List Blk) (h : Arena s l) : Invariants s l := by
  obtain ⟨h0, _, _, hl⟩ := h
  rw [tags_iff] at hl
  refine ⟨h0, (blocks_iff _ _ _ _).2 ⟨hl.1, hl.2.1, ?_⟩⟩
  rw [hl.2.2]
  cases lastUsed true l <;> decide

theorem coalesce_both_used (s : State) (pre post : List Blk) (b : Blk)
    (h0 : 0 < s.heapStart) (hl : Blocks s s.heapStart true (pre ++ b :: post))
    (hb : b.used = true) (hpl : lastUsed true pre = true)
    (hd : dropFreeTail pre = pre) (hz : freeTailSize pre = 0)
    (hu : ∀ q rest, post = q :: rest → q.used = true) :
    Coalesced s pre b post (freeHeap s (s.heapStart + sumSizes pre + 4)) := by
  rw [blocks_append, blocks_cons, hpl, hb] at hl
  obtain ⟨hpre, hbA, hpost⟩ := hl
  have hnn := seg_sum_nonneg s pre _ _ hpre
  have htot := ((blocks_iff s _ _ _).1 hpost).2.1
  have hnn2 := seg_sum_nonneg s post _ _ ((blocks_iff s _ _ _).1 hpost).1
  obtain ⟨b1, b2, b3, _⟩ := hbA
  rw [hb, headerWord_used_used] at b3
  have hw := blocks_next_word s _ post hpost hu
  rw [freeHeap_both_used s _ b.size _ (by omega) (by omega) (by omega) b1 b2 b3 rfl hw]
  generalize hT : store (store (store s (s.heapStart + sumSizes pre) (b.size + 2))
      (s.heapStart + sumSizes pre + b.size - 4) b.size)
      (s.heapStart + sumSizes pre + b.size)
      (s.mem (s.heapStart + sumSizes pre + b.size) - 2) = t
  have ths : t.heapStart = s.heapStart := by rw [← hT]; rfl
  have tas : t.allocsize = s.allocsize := by rw [← hT]; rfl
  have tcur : t.recentlyAllocated = s.recentlyAllocated := by rw [← hT]; rfl
  have hmem : ∀ x, t.mem x =
      if x = s.heapStart + sumSizes pre + b.size then
        s.mem (s.heapStart + sumSizes pre + b.size) - 2
      else if x = s.heapStart + sumSizes pre + b.size - 4 then b.size
      else if x = s.heapStart + sumSizes pre then b.size + 2 else s.mem x := by
    intro x; rw [← hT]; rfl
  obtain ⟨u1, u2⟩ := post_used_facts post hu
  have hrel : released pre b post = pre ++ { size := b.size, used := false } :: post := by
    simp [released, hd, hz, u1, u2]
  refine ⟨rfl, ⟨by rw [← ths] at h0; exact h0, ?_⟩, ths, tas, ?_, ?_, ?_⟩
  · show Blocks t t.heapStart true _
    rw [ths, hrel, blocks_append, blocks_cons, hpl]
    dsimp only
    refine ⟨?_, blockAt_free_mk t _ _ b1 b2 ?_ ?_, ?_⟩
    · refine seg_frame s _ pre _ _ (fun x _ hx => ?_) hpre
      rw [hmem, if_neg (by omega), if_neg (by omega), if_neg (by omega)]
    · rw [hmem, if_neg (by omega), if_neg (by omega), if_pos rfl]
    · rw [hmem, if_neg (by omega), if_pos rfl]
    · refine blocks_clear_prev s t _ post ths tas ?_ ?_ hu hpost
      · rw [hmem, if_pos rfl]
      · intro x hx
        rw [hmem, if_neg (by omega), if_neg (by omega), if_neg (by omega)]
  · intro x hx
    rw [hz, u1] at hx
    show t.mem x = s.mem x
    rw [hmem, if_neg (by omega), if_neg (by omega), if_neg (by omega)]
  · show t.mem _ = _
    cases post with
    | nil =>
      rw [sumSizes_nil] at htot
      rw [List.isEmpty_nil, if_pos rfl, hmem, if_pos (by omega),
        show s.heapStart + sumSizes pre + b.size = s.heapStart + s.allocsize by omega]
    | cons q rest =>
      have hq1 : 0 < q.size := by
        rw [blocks_cons] at hpost
        exact hpost.1.1
      have hnn3 := seg_sum_nonneg s rest _ _
        ((blocks_iff s _ _ _).1 ((blocks_cons s _ _ _ _).1 hpost).2).1
      rw [sumSizes_cons] at htot
      rw [List.isEmpty_cons, if_neg (by decide), hmem, if_neg (by omega), if_neg (by omega),
        if_neg (by omega)]
  · show t.recentlyAllocated = _
    rw [hpl, tcur]
    simp

theorem coalesce_next_free (s : State) (pre post : List Blk) (b q : Blk)
    (h0 : 0 < s.heapStart) (hl : Blocks s s.heapStart true (pre ++ b :: q :: post))
    (hb : b.used = true) (hpl : lastUsed true pre = true) (hq : q.used = false)
    (hd : dropFreeTail pre = pre) (hz : freeTailSize pre = 0) :
    Coalesced s pre b (q :: post) (freeHeap s (s.heapStart + sumSizes pre + 4)) := by
  rw [blocks_append, blocks_cons, blocks_cons, hpl, hb] at hl
  obtain ⟨hpre, hbA, hqA, hrest⟩ := hl
  have hnn := seg_sum_nonneg s pre _ _ hpre
  have htot := ((blocks_iff s _ _ _).1 hrest).2.1
  have hnn2 := seg_sum_nonneg s post _ _ ((blocks_iff s _ _ _).1 hrest).1
  obtain ⟨b1, b2, b3, _⟩ := hbA
  obtain ⟨q1, q2, q3, q4⟩ := hqA
  rw [hb, headerWord_used_used] at b3
  rw [hq, headerWord_free_used] at q3
  rw [freeHeap_next_free s _ b.size q.size (by omega) (by omega) (by omega) b1 b2 b3 q1 q2 q3]
  generalize hT : store (store (store (store s (s.heapStart + sumSizes pre) (b.size + 2))
      (s.heapStart + sumSizes pre + b.size) q.size)
      (s.heapStart + sumSizes pre) (b.size + q.size + 2))
      (s.heapStart + sumSizes pre + b.size + q.size - 4) (b.size + q.size) = t
  have ths : t.heapStart = s.heapStart := by rw [← hT]; rfl
  have tas : t.allocsize = s.allocsize := by rw [← hT]; rfl
  have tcur : t.recentlyAllocated = s.recentlyAllocated := by rw [← hT]; rfl
  have hmem : ∀ x, t.mem x =
      if x = s.heapStart + sumSizes pre + b.size + q.size - 4 then b.size + q.size
      else if x = s.heapStart + sumSizes pre then b.size + q.size + 2
      else if x = s.heapStart + sumSizes pre + b.size then q.size
      else if x = s.heapStart + sumSizes pre then b.size + 2 else s.mem x := by
    intro x; rw [← hT]; rfl
  have hrel : released pre b (q :: post) =
      pre ++ { size := b.size + q.size, used := false } :: post := by
    simp [released, hd, hz, freeHeadSize, dropFreeHead, hq]
  refine ⟨rfl, ⟨by rw [← ths] at h0; exact h0, ?_⟩, ths, tas, ?_, ?_, ?_⟩
  · show Blocks t t.heapStart true _
    rw [ths, hrel, blocks_append, blocks_cons, hpl]
    dsimp only
    refine ⟨?_, blockAt_free_mk t _ _ (by omega) (by omega) ?_ ?_, ?_⟩
    · refine seg_frame s _ pre _ _ (fun x _ hx => ?_) hpre
      rw [hmem, if_neg (by omega), if_neg (by omega), if_neg (by omega), if_neg (by omega)]
    · rw [hmem, if_neg (by omega), if_pos rfl]
    · rw [hmem, if_pos (by ring)]
    · rw [hq] at hrest
      rw [show s.heapStart + sumSizes pre + (b.size + q.size) =
        s.heapStart + sumSizes pre + b.size + q.size by ring]
      refine blocks_frame s _ _ _ _ ths tas (fun x hx => ?_) hrest
      rw [hmem, if_neg (by omega), if_neg (by omega), if_neg (by omega), if_neg (by omega)]
  · intro x hx
    have hfh : freeHeadSize (q :: post) = q.size := by simp [freeHeadSize, hq]
    rw [hz, hfh] at hx
    show t.mem x = s.mem x
    rw [hmem, if_neg (by omega), if_neg (by omega), if_neg (by omega), if_neg (by omega)]
  · show t.mem _ = _
    rw [List.isEmpty_cons, if_neg (by decide), hmem, if_neg (by omega), if_neg (by omega),
      if_neg (by omega), if_neg (by omega)]
  · show t.recentlyAllocated = _
    rw [hpl, tcur]
    simp

theorem coalesce_prev_free (s : State) (l post : List Blk) (pq b : Blk)
    (h0 : 0 < s.heapStart) (hl : Blocks s s.heapStart true ((l ++ [pq]) ++ b :: post))
    (hb : b.used = true) (hpq : pq.used = false)
    (hu : ∀ q rest, post = q :: rest → q.used = true) :
    Coalesced s (l ++ [pq]) b post
      (freeHeap s (s.heapStart + sumSizes (l ++ [pq]) + 4)) := by
  have hpl : lastUsed true (l ++ [pq]) = false := by rw [lastUsed_concat, hpq]
  have hd : dropFreeTail (l ++ [pq]) = l := by simp [dropFreeTail, hpq]
  have hz : freeTailSize (l ++ [pq]) = pq.size := by simp [freeTailSize, hpq]
  have hsum := sumSizes_concat l pq
  rw [blocks_append, blocks_cons, hpl, hb, seg_append, seg_single] at hl
  obtain ⟨⟨hpre, hpA⟩, hbA, hpost⟩ := hl
  have hnn := seg_sum_nonneg s l _ _ hpre
  have htot := ((blocks_iff s _ _ _).1 hpost).2.1
  have hnn2 := seg_sum_nonneg s post _ _ ((blocks_iff s _ _ _).1 hpost).1
  obtain ⟨p1, p2, p3, p4⟩ := hpA
  obtain ⟨p4, p5⟩ := p4 hpq
  obtain ⟨b1, b2, b3, _⟩ := hbA
  rw [hpq, p5, headerWord_free_used] at p3
  rw [hb, headerWord_used_free] at b3
  have hw := blocks_next_word s _ post hpost hu
  have ef : s.heapStart + sumSizes (l ++ [pq]) - 4 = s.heapStart + sumSizes l + pq.size - 4 := by
    omega
  have eh : s.heapStart + sumSizes (l ++ [pq]) - pq.size = s.heapStart + sumSizes l := by
    omega
  rw [freeHeap_prev_free s _ b.size pq.size _ (by omega) (by omega) (by omega)
    b1 b2 b3 p1 p2 (by rw [ef]; exact p4) (by rw [eh]; exact p3) rfl hw]
  generalize hT : store (store (store
      (if s.recentlyAllocated = s.heapStart + sumSizes (l ++ [pq]) then
        { s with recentlyAllocated := s.heapStart + sumSizes (l ++ [pq]) - pq.size } else s)
      (s.heapStart + sumSizes (l ++ [pq]) - pq.size) (pq.size + b.size + 2))
      (s.heapStart + sumSizes (l ++ [pq]) + b.size - 4) (pq.size + b.size))
      (s.heapStart + sumSizes (l ++ [pq]) + b.size)
      (s.mem (s.heapStart + sumSizes (l ++ [pq]) + b.size) - 2) = t
  have ths : t.heapStart = s.heapStart := by
    rw [← hT]
    show (if _ then _ else s).heapStart = _
    split <;> rfl
  have tas : t.allocsize = s.allocsize := by
    rw [← hT]
    show (if _ then _ else s).allocsize = _
    split <;> rfl
  have tcur : t.recentlyAllocated =
      if s.recentlyAllocated = s.heapStart + sumSizes (l ++ [pq]) then
        s.heapStart + sumSizes (l ++ [pq]) - pq.size else s.recentlyAllocated := by
    rw [← hT]
    show (if _ then _ else s).recentlyAllocated = _
    split <;> rfl
  have hmem : ∀ x, t.mem x =
      if x = s.heapStart + sumSizes (l ++ [pq]) + b.size then
        s.mem (s.heapStart + sumSizes (l ++ [pq]) + b.size) - 2
      else if x = s.heapStart + sumSizes (l ++ [pq]) + b.size - 4 then pq.size + b.size
      else if x = s.heapStart + sumSizes (l ++ [pq]) - pq.size then pq.size + b.size + 2
      else s.mem x := by
    intro x; rw [← hT]
    simp only [store_mem, cursor_ite_mem]
  obtain ⟨u1, u2⟩ := post_used_facts post hu
  have hrel : released (l ++ [pq]) b post =
      l ++ { size := pq.size + b.size, used := false } :: post := by
    simp [released, hd, hz, u1, u2]
  refine ⟨rfl, ⟨by rw [← ths] at h0; exact h0, ?_⟩, ths, tas, ?_, ?_, ?_⟩
  · show Blocks t t.heapStart true _
    rw [ths, hrel, blocks_append, blocks_cons, p5]
    dsimp only
    refine ⟨?_, blockAt_free_mk t _ _ (by omega) (by omega) ?_ ?_, ?_⟩
    · refine seg_frame s _ l _ _ (fun x _ hx => ?_) hpre
      rw [hmem, if_neg (by omega), if_neg (by omega), if_neg (by omega)]
    · rw [hmem, if_neg (by omega), if_neg (by omega), if_pos (by omega)]
    · rw [hmem, if_neg (by omega), if_pos (by omega)]
    · rw [show s.heapStart + sumSizes l + (pq.size + b.size) =
        s.heapStart + sumSizes (l ++ [pq]) + b.size by omega]
      refine blocks_clear_prev s t _ post ths tas ?_ ?_ hu hpost
      · rw [hmem, if_pos rfl]
      · intro x hx
        rw [hmem, if_neg (by omega), if_neg (by omega), if_neg (by omega)]
  · intro x hx
    rw [hz, u1] at hx
    show t.mem x = s.mem x
    rw [hmem, if_neg (by omega), if_neg (by omega), if_neg (by omega)]
  · show t.mem _ = _
    cases post with
    | nil =>
      rw [sumSizes_nil] at htot
      rw [List.isEmpty_nil, if_pos rfl, hmem, if_pos (by omega),
        show s.heapStart + sumSizes (l ++ [pq]) + b.size = s.heapStart + s.allocsize by omega]
    | cons q rest =>
      have hq1 : 0 < q.size := by
        rw [blocks_cons] at hpost
        exact hpost.1.1
      have hnn3 := seg_sum_nonneg s rest _ _
        ((blocks_iff s _ _ _).1 ((blocks_cons s _ _ _ _).1 hpost).2).1
      rw [sumSizes_cons] at htot
      rw [List.isEmpty_cons, if_neg (by decide), hmem, if_neg (by omega), if_neg (by omega),
        if_neg (by omega)]
  · show t.recentlyAllocated = _
    rw [hpl, tcur, hz]
    simp

theorem coalesce_both_free (s : State) (l post : List Blk) (pq b q : Blk)
    (h0 : 0 < s.heapStart) (hl : Blocks s s.heapStart true ((l ++ [pq]) ++ b :: q :: post))
    (hb : b.used = true) (hpq : pq.used = false) (hq : q.used = false) :
    Coalesced s (l ++ [pq]) b (q :: post)
      (freeHeap s (s.heapStart + sumSizes (l ++ [pq]) + 4)) := by
  have hpl : lastUsed true (l ++ [pq]) = false := by rw [lastUsed_concat, hpq]
  have hd : dropFreeTail (l ++ [pq]) = l := by simp [dropFreeTail, hpq]
  have hz : freeTailSize (l ++ [pq]) = pq.size := by simp [freeTailSize, hpq]
  have hsum := sumSizes_concat l pq
  rw [blocks_append, blocks_cons, blocks_cons, hpl, hb, seg_append, seg_single] at hl
  obtain ⟨⟨hpre, hpA⟩, hbA, hqA, hrest⟩ := hl
  have hnn := seg_sum_nonneg s l _ _ hpre
  have htot := ((blocks_iff s _ _ _).1 hrest).2.1
  have hnn2 := seg_sum_nonneg s post _ _ ((blocks_iff s _ _ _).1 hrest).1
  obtain ⟨p1, p2, p3, p4⟩ := hpA
  obtain ⟨p4, p5⟩ := p4 hpq
  obtain ⟨b1, b2, b3, _⟩ := hbA
  obtain ⟨q1, q2, q3, _⟩ := hqA
  rw [hpq, p5, headerWord_free_used] at p3
  rw [hb, headerWord_used_free] at b3
  rw [hq, headerWord_free_used] at q3
  have ef : s.heapStart + sumSizes (l ++ [pq]) - 4 = s.heapStart + sumSizes l + pq.size - 4 := by
    omega
  have eh : s.heapStart + sumSizes (l ++ [pq]) - pq.size = s.heapStart + sumSizes l := by
    omega
  rw [freeHeap_both_free s _ b.size pq.size q.size (by omega) (by omega) (by omega)
    b1 b2 b3 p1 p2 (by rw [ef]; exact p4) (by rw [eh]; exact p3) q1 q2 q3]
  generalize hT : store (store
      (if s.recentlyAllocated = s.heapStart + sumSizes (l ++ [pq]) then
        { s with recentlyAllocated := s.heapStart + sumSizes (l ++ [pq]) - pq.size } else s)
      (s.heapStart + sumSizes (l ++ [pq]) - pq.size) (pq.size + b.size + q.size + 2))
      (s.heapStart + sumSizes (l ++ [pq]) + b.size + q.size - 4)
      (pq.size + b.size + q.size) = t
  have ths : t.heapStart = s.heapStart := by
    rw [← hT]
    show (if _ then _ else s).heapStart = _
    split <;> rfl
  have tas : t.allocsize = s.allocsize := by
    rw [← hT]
    show (if _ then _ else s).allocsize = _
    split <;> rfl
  have tcur : t.recentlyAllocated =
      if s.recentlyAllocated = s.heapStart + sumSizes (l ++ [pq]) then
        s.heapStart + sumSizes (l ++ [pq]) - pq.size else s.recentlyAllocated := by
    rw [← hT]
    show (if _ then _ else s).recentlyAllocated = _
    split <;> rfl
  have hmem : ∀ x, t.mem x =
      if x = s.heapStart + sumSizes (l ++ [pq]) + b.size + q.size - 4 then
        pq.size + b.size + q.size
      else if x = s.heapStart + sumSizes (l ++ [pq]) - pq.size then
        pq.size + b.size + q.size + 2
      else s.mem x := by
    intro x; rw [← hT]
    simp only [store_mem, cursor_ite_mem]
  have hrel : released (l ++ [pq]) b (q :: post) =
      l ++ { size := pq.size + b.size + q.size, used := false } :: post := by
    simp [released, hd, hz, freeHeadSize, dropFreeHead, hq]
  refine ⟨rfl, ⟨by rw [← ths] at h0; exact h0, ?_⟩, ths, tas, ?_, ?_, ?_⟩
  · show Blocks t t.heapStart true _
    rw [ths, hrel, blocks_append, blocks_cons, p5]
    dsimp only
    refine ⟨?_, blockAt_free_mk t _ _ (by omega) (by omega) ?_ ?_, ?_⟩
    · refine seg_frame s _ l _ _ (fun x _ hx => ?_) hpre
      rw [hmem, if_neg (by omega), if_neg (by omega)]
    · rw [hmem, if_neg (by omega), if_pos (by omega)]
    · rw [hmem, if_pos (by omega)]
    · rw [hq] at hrest
      rw [show s.heapStart + sumSizes l + (pq.size + b.size + q.size) =
        s.heapStart + sumSizes (l ++ [pq]) + b.size + q.size by omega]
      refine blocks_frame s _ _ _ _ ths tas (fun x hx => ?_) hrest
      rw [hmem, if_neg (by omega), if_neg (by omega)]
  · intro x hx
    have hfh : freeHeadSize (q :: post) = q.size := by simp [freeHeadSize, hq]
    rw [hz, hfh] at hx
    show t.mem x = s.mem x
    rw [hmem, if_neg (by omega), if_neg (by omega)]
  · show t.mem _ = _
    rw [List.isEmpty_cons, if_neg (by decide), hmem, if_neg (by omega), if_neg (by omega)]
  · show t.recentlyAllocated = _
    rw [hpl, tcur, hz]
    simp

theorem post_cases (post : List Blk) :
    (∀ q rest, post = q :: rest → q.used = true) ∨
      ∃ q rest, post = q :: rest ∧ q.used = false := by
  cases post with
  | nil => left; intro q rest e; cases e
  | cons q rest =>
    cases hq : q.used with
    | true => left; intro q2 rest2 e; cases e; exact hq
    | false => right; exact ⟨q, rest, rfl, hq⟩

/-! The claims -/

/-- C1 (block-sequence invariant), refuted on the code.  After the eight calls
`allocHeap(4)`, `allocHeap(4)`, `freeHeap` of the second and of the first pointer,
`allocHeap(4)`, `allocHeap(4)`, and `freeHeap` of the two pointers just returned, the
header at `heapStart` records size 8160 in an arena of 4088 bytes: the walk from
`heapStart` steps over the end marker and never arrives at `heapStart + allocsize`. -/
theorem C1_walk_overshoots_end_marker :
    ∃ s live, Reachable s live ∧ ¬ WalksToEnd s s.heapStart := by
  refine ⟨_, _, reachable_stateAfter
    (opsStale ++ [Op.alloc 4, Op.alloc 4, Op.free 65552, Op.free 65560]) (by decide), ?_⟩
  intro hw
  have hs : (stateAfter
      (opsStale ++ [Op.alloc 4, Op.alloc 4, Op.free 65552, Op.free 65560])).heapStart
      = 65540 := by decide
  have ha : (stateAfter
      (opsStale ++ [Op.alloc 4, Op.alloc 4, Op.free 65552, Op.free 65560])).allocsize
      = 4088 := by decide
  have hb : blockSize (stateAfter
      (opsStale ++ [Op.alloc 4, Op.alloc 4, Op.free 65552, Op.free 65560])) 65540
      = 8160 := by decide
  generalize stateAfter
    (opsStale ++ [Op.alloc 4, Op.alloc 4, Op.free 65552, Op.free 65560]) = s at *
  rcases walksToEnd_cases _ _ hw with h | ⟨_, hnext⟩
  · omega
  · have := walksToEnd_le _ _ hnext
    rw [hs, hb, ha] at this
    omega

/-- C2 (no two adjacent free blocks), refuted on the code.  After the calls `opsInner`
and the release of the block at `heapStart + 24`, the walk from `heapStart` still arrives
at the end marker, and its first two blocks (at `heapStart` and `heapStart + 24`, 24
bytes each) are both free. -/
theorem C2_adjacent_free_blocks_reachable :
    ∃ s live, Reachable s live ∧ WalksToEnd s s.heapStart ∧ ¬ NoAdjacentFree s := by
  refine ⟨_, _, reachable_stateAfter (opsInner ++ [Op.free 65568]) (by decide), ?_, ?_⟩
  · have e : (stateAfter (opsInner ++ [Op.free 65568])).heapStart = 65540 := by decide
    rw [e]
    refine walksToEnd_step _ 65540 24 65564 (by decide) (by decide) (by decide) ?_
    refine walksToEnd_step _ 65564 24 65588 (by decide) (by decide) (by decide) ?_
    refine walksToEnd_step _ 65588 4032 69620 (by decide) (by decide) (by decide) ?_
    refine walksToEnd_step _ 69620 8 69628 (by decide) (by decide) (by decide) ?_
    exact walksToEnd_done _ _ (by decide)
  · intro h
    have hb : IsBlock (stateAfter (opsInner ++ [Op.free 65568]))
        (stateAfter (opsInner ++ [Op.free 65568])).heapStart := IsBlock.first (by decide)
    exact h _ hb (IsBlock.next _ hb (by decide)) ⟨by decide, by decide⟩

/-- C3 (header/footer invariant), refuted on the code.  After the calls `opsStale` and one
more `allocHeap(4)`, the only block of the sequence is free with header size 4088, while
the footer in its last 4 bytes holds 4072. -/
theorem C3_footer_mismatch_reachable :
    ∃ s live, Reachable s live ∧ ¬ FootersMatch s := by
  refine ⟨_, _, reachable_stateAfter (opsStale ++ [Op.alloc 4]) (by decide), ?_⟩
  intro h
  have := h _ (IsBlock.first (by decide)) (by decide)
  revert this
  decide

/-- C4 (round trip), refuted on the code.  After the calls `opsStale` no allocation is
outstanding and the arena is a single free block; `allocHeap(4076)` then returns a
non-null pointer, `freeHeap` of that pointer returns 0, and afterwards the arena is not
the single free block any more (the footer holds 8160 instead of 4088). -/
theorem C4_round_trip_fails_after_stale_cursor :
    ∃ s, Reachable s [] ∧ SingleFree s ∧
      ∃ fuel N s1 p, allocHeap fuel s N = some (s1, p) ∧ p ≠ 0 ∧
        (freeHeap s1 p).2 = 0 ∧ ¬ SingleFree (freeHeap s1 p).1 := by
  refine ⟨_, reachable_stateAfter opsStale (by decide), ⟨by decide, by decide, by decide⟩,
    8, 4076, _, _, allocHeap_some_eq 8 _ 4076 (by decide), by decide, by decide, ?_⟩
  intro h
  have := h.2.1
  revert this
  decide

/-- C5 (double free is rejected), refuted on the code.  After the calls `opsHole` the
pointer 65552 is outstanding and its block follows a free block.  The first `freeHeap`
of it returns 0 and merges the block into its predecessor; a second `freeHeap` of the
same pointer returns 0 again, not -1, and changes the header at `heapStart`. -/
theorem C5_double_free_returns_success :
    ∃ s live p s1, Reachable s live ∧ p ∈ live ∧ freeHeap s p = (s1, 0) ∧
      (freeHeap s1 p).2 = 0 ∧ (freeHeap s1 p).1.mem s1.heapStart ≠ s1.mem s1.heapStart := by
  refine ⟨_, _, 65552, (freeHeap (stateAfter opsHole) 65552).1,
    reachable_stateAfter opsHole (by decide), by decide, ?_, by decide, by decide⟩
  exact Prod.ext rfl (by decide)

/-- C6 (bad request sizes are rejected), refuted on the code for size 0.  Right after
`initHeap`, `allocHeap(0)` returns a non-null pointer and rewrites the header at
`heapStart`. -/
theorem C6_zero_size_is_allocated :
    ∃ s live s1 p, Reachable s live ∧ allocHeap 1 s 0 = some (s1, p) ∧ p ≠ 0 ∧
      s1.mem s.heapStart ≠ s.mem s.heapStart := by
  exact ⟨_, _, _, _, reachable_stateAfter [] (by decide), allocHeap_some_eq 1 _ 0 (by decide),
    by decide, by decide⟩

/-- C7 (exhaustion terminates with NULL), refuted on the code.  After the calls `opsHole`
the request `allocHeap(4080)` satisfies `0 < size <= allocsize`, no free block of the
sequence is as large as the required 4088 bytes, and the call does not return with any
amount of fuel: the scan cycles through the blocks for ever. -/
theorem C7_exhausted_scan_never_returns :
    ∃ s live size, Reachable s live ∧ 0 < size ∧ size ≤ s.allocsize ∧
      (∀ a, IsBlock s a → s.mem a % 2 = 0 → blockSize s a < requiredSize size) ∧
      ∀ fuel, allocHeap fuel s size = none := by
  refine ⟨_, _, 4080, reachable_stateAfter opsHole (by decide), by decide, by decide, ?_, ?_⟩
  · intro a ha _
    rcases isBlock_opsHole a ha with rfl | rfl | rfl <;> decide
  · intro fuel
    rw [allocHeap_eq_allocLoop fuel _ 4080 (by decide) (by decide) (by decide)]
    have hr : requiredSize 4080 = 4088 := by decide
    have hc : (stateAfter opsHole).recentlyAllocated = 65548 := by decide
    rw [hr, hc]
    have e0 : ∀ n, allocLoop (n + 1) (stateAfter opsHole) 4088 65548 =
        allocLoop n (stateAfter opsHole) 4088 65556 := fun n =>
      allocLoop_skip_used n _ 4088 65548 (by decide) (by decide)
    have e1 : ∀ n, allocLoop (n + 1) (stateAfter opsHole) 4088 65556 =
        allocLoop n (stateAfter opsHole) 4088 69628 := fun n =>
      allocLoop_skip_small n _ 4088 65556 (by decide) (by decide)
    have e2 : ∀ n, allocLoop (n + 1) (stateAfter opsHole) 4088 69628 =
        allocLoop n (stateAfter opsHole) 4088 65540 := fun n =>
      allocLoop_skip_used n _ 4088 69628 (by decide) (by decide)
    have e3 : ∀ n, allocLoop (n + 1) (stateAfter opsHole) 4088 65540 =
        allocLoop n (stateAfter opsHole) 4088 65548 := fun n =>
      allocLoop_skip_small n _ 4088 65540 (by decide) (by decide)
    have key : ∀ n, allocLoop n (stateAfter opsHole) 4088 65548 = none ∧
        allocLoop n (stateAfter opsHole) 4088 65556 = none ∧
        allocLoop n (stateAfter opsHole) 4088 69628 = none ∧
        allocLoop n (stateAfter opsHole) 4088 65540 = none := by
      intro n
      induction n with
      | zero => exact ⟨rfl, rfl, rfl, rfl⟩
      | succ k ih =>
        obtain ⟨i0, i1, i2, i3⟩ := ih
        exact ⟨(e0 k).trans i1, (e1 k).trans i2, (e2 k).trans i3, (e3 k).trans i0⟩
    exact (key fuel).1

/-- C8 (next-fit placement with wraparound), refuted on the code.  After the calls
`opsFull` the first block of the sequence is free and large enough for `allocHeap(4)`
(8 bytes required, 8 bytes free), it lies before the cursor, and the call does not return
with any amount of fuel: the exact fit of the last block has turned the end-marker word
into 3, so the scan never wraps around. -/
theorem C8_wraparound_scan_never_returns :
    ∃ s live size a, Reachable s live ∧ 0 < size ∧ size ≤ s.allocsize ∧
      IsBlock s a ∧ s.mem a % 2 = 0 ∧ requiredSize size ≤ blockSize s a ∧
      a < s.recentlyAllocated ∧ ∀ fuel, allocHeap fuel s size = none := by
  refine ⟨_, _, 4, _, reachable_stateAfter opsFull (by decide), by decide, by decide,
    IsBlock.first (by decide), by decide, by decide, by decide, ?_⟩
  intro fuel
  rw [allocHeap_eq_allocLoop fuel _ 4 (by decide) (by decide) (by decide)]
  have hr : requiredSize 4 = 8 := by decide
  have hc : (stateAfter opsFull).recentlyAllocated = 65548 := by decide
  rw [hr, hc]
  have e0 : ∀ n, allocLoop (n + 1) (stateAfter opsFull) 8 65548 =
      allocLoop n (stateAfter opsFull) 8 69628 := fun n =>
    allocLoop_skip_used n _ 8 65548 (by decide) (by decide)
  have e1 : ∀ n, allocLoop (n + 1) (stateAfter opsFull) 8 69628 =
      allocLoop n (stateAfter opsFull) 8 69628 := fun n =>
    allocLoop_skip_used n _ 8 69628 (by decide) (by decide)
  have key : ∀ n, allocLoop n (stateAfter opsFull) 8 69628 = none := by
    intro n
    induction n with
    | zero => rfl
    | succ k ih => exact (e1 k).trans ih
  cases fuel with
  | zero => rfl
  | succ k => exact (e0 k).trans (key k)

/-- C9 (coalescing postcondition).  In every state satisfying the data-model invariants
for the block sequence `pre ++ b :: post` with `b` in use, where the end-marker word is
the literal 1 or carries a prev_allocated bit as in the states that the code produces
behind a last block in use, `freeHeap` of the payload pointer of `b` returns 0 and leaves
a state satisfying the invariants for the sequence in which `b` and its free immediate
neighbours are one free block of the combined size (header size and footer equal to the
sum); the block that follows has its prev_allocated bit cleared (behind a last block `b`
it is the end-marker word that loses 2), no word before the merged block or after the
header that follows it changes, and the cursor moves to the predecessor's header exactly
when it referenced `b` and the predecessor was free. -/
theorem C9_release_coalesces (s : State) (pre post : List Blk) (b : Blk)
    (hinv : Invariants s (pre ++ b :: post)) (hused : b.used = true) :
    Coalesced s pre b post (freeHeap s (s.heapStart + sumSizes pre + 4)) := by
  obtain ⟨h0, hl⟩ := hinv
  rcases pre_cases pre with ⟨hpl, hd, hz⟩ | ⟨l, pq, rfl, hpq⟩
  · rcases post_cases post with hu | ⟨q, rest, rfl, hq⟩
    · exact coalesce_both_used s pre post b h0 hl hused hpl hd hz hu
    · exact coalesce_next_free s pre rest b q h0 hl hused hpl hq hd hz
  · rcases post_cases post with hu | ⟨q, rest, rfl, hq⟩
    · exact coalesce_prev_free s l post pq b h0 hl hused hpq hu
    · exact coalesce_both_free s l rest pq b q h0 hl hused hpq hq

/-- C9, a concrete instance: in the state after `opsFull`, a reachable one, the block
sequence is a free block of 8 bytes and a last block of 4080 bytes in use that the cursor
references, and the end-marker word is 3; releasing the last block merges both into one
free block of 4088 bytes and takes 2 off the end-marker word. -/
theorem C9_release_coalesces_witness :
    Reachable (stateAfter opsFull) (liveAfter opsFull) ∧
      Invariants (stateAfter opsFull)
        ([{ size := 8, used := false }] ++ { size := 4080, used := true } :: []) ∧
      ({ size := 4080, used := true } : Blk).used = true ∧
      (stateAfter opsFull).mem ((stateAfter opsFull).heapStart + (stateAfter opsFull).allocsize)
        = 3 ∧
      Coalesced (stateAfter opsFull) [{ size := 8, used := false }]
        { size := 4080, used := true } []
        (freeHeap (stateAfter opsFull)
          ((stateAfter opsFull).heapStart + sumSizes [{ size := 8, used := false }] + 4)) := by
  have hinv : Invariants (stateAfter opsFull)
      ([{ size := 8, used := false }] ++ { size := 4080, used := true } :: []) := by
    refine ⟨by decide, ?_⟩
    show Blocks _ _ _ [_, _]
    rw [blocks_cons, blocks_cons, blocks_nil]
    exact ⟨⟨by decide, by decide, by decide, by decide⟩,
      ⟨by decide, by decide, by decide, by decide⟩, by decide, by decide⟩
  exact ⟨reachable_stateAfter opsFull (by decide), hinv, rfl, by decide,
    C9_release_coalesces _ _ _ _ hinv rfl⟩

/-- C10 (prev_allocated invariant), refuted on the code.  After the calls `opsInner` the
first block of the sequence (at `heapStart`, 24 bytes) is free, yet the header of the
block after it has its prev_allocated bit set. -/
theorem C10_prev_allocated_bit_wrong_reachable :
    ∃ s live, Reachable s live ∧ WalksToEnd s s.heapStart ∧ ¬ PrevBitsCorrect s := by
  refine ⟨_, _, reachable_stateAfter opsInner (by decide), ?_, ?_⟩
  · have e : (stateAfter opsInner).heapStart = 65540 := by decide
    rw [e]
    refine walksToEnd_step _ 65540 24 65564 (by decide) (by decide) (by decide) ?_
    refine walksToEnd_step _ 65564 24 65588 (by decide) (by decide) (by decide) ?_
    refine walksToEnd_step _ 65588 4032 69620 (by decide) (by decide) (by decide) ?_
    refine walksToEnd_step _ 69620 8 69628 (by decide) (by decide) (by decide) ?_
    exact walksToEnd_done _ _ (by decide)
  · intro h
    have hb : IsBlock (stateAfter opsInner)
        (stateAfter opsInner).heapStart := IsBlock.first (by decide)
    have := h.2 _ hb (IsBlock.next _ hb (by decide))
    revert this
    decide

/-- C11 (out-of-range pointers are rejected), refuted on the code.  In the state `sForeign`
the pointer 69640 is not null and its header address 69636 lies 4096 bytes above
`heapStart`, beyond `heapStart + allocsize`; the word stored there has the allocated bit
set, and `freeHeap` returns 0 and rewrites that word. -/
theorem C11_pointer_past_the_arena_is_released :
    sForeign.heapStart = 65540 ∧ sForeign.allocsize = 4088 ∧ (69640 : Int) ≠ 0 ∧
      sForeign.heapStart + sForeign.allocsize < 69640 - 4 ∧
      (freeHeap sForeign 69640).2 = 0 ∧
      (freeHeap sForeign 69640).1.mem 69636 ≠ sForeign.mem 69636 := by
  decide

/-- C12 (freeHeap is atomic on failure): `freeHeap(NULL)` returns -1 and changes nothing;
whenever `freeHeap` returns -1 the whole state (every word of memory and the cursor) is
as before the call; and `freeHeap` returns only 0 or -1. -/
theorem C12_freeHeap_failure_changes_nothing (s : State) (p : Int) :
    freeHeap s 0 = (s, -1) ∧
      ((freeHeap s p).2 = -1 → (freeHeap s p).1 = s) ∧
      ((freeHeap s p).2 = 0 ∨ (freeHeap s p).2 = -1) := by
  refine ⟨by simp [freeHeap], ?_, ?_⟩
  · unfold freeHeap
    dsimp only
    split_ifs <;> simp
  · unfold freeHeap
    dsimp only
    split_ifs <;> simp

/-- C12, a concrete instance: right after `initHeap`, `freeHeap` of the payload pointer of
the free block returns -1 and leaves the state as it was. -/
theorem C12_freeHeap_failure_changes_nothing_witness :
    (freeHeap h0 65544).2 = -1 ∧ (freeHeap h0 65544).1 = h0 :=
  ⟨by decide, (C12_freeHeap_failure_changes_nothing h0 65544).2.1 (by decide)⟩

/-- C13 as stated fails for a page size of 8 and a capacity of at most 8: `allocsize`
becomes 0, the header is written over the end marker, and the word at
`heapStart + allocsize` holds 2, not 1. -/
theorem C13_tiny_page_overwrites_end_marker :
    (0 : Int) < 8 ∧ (0 : Int) < envTiny.pagesize ∧ envTiny.pagesize % 8 = 0 ∧
      (initHeap envTiny State.boot 8).2 = 0 ∧
      (initHeap envTiny State.boot 8).1.allocsize = 0 ∧
      ¬ SingleFree (initHeap envTiny State.boot 8).1 := by
  refine ⟨by decide, by decide, by decide, by decide, by decide, ?_⟩
  intro h
  have := h.2.2
  revert this
  decide

/-- C13 (initHeap postcondition), amended: the page-rounded capacity exceeds 8.  For every
capacity > 0 and page size P, a positive multiple of 8, other than P = 8 with
capacity <= 8, the first `initHeap(capacity)` with a successful reservation at `base`
returns 0; `allocsize + 8` is the smallest multiple of P that is >= capacity;
`heapStart = base + 4`; and the arena is one free block: header `allocsize + 2`, footer
`allocsize` in the last 4 bytes, end marker 1.  (`int` is unbounded here; where the
rounded capacity leaves the `int` range no reservation succeeds.) -/
theorem C13_initHeap_postcondition (env : Env) (s : State) (sizeOfRegion base : Int)
    (hsz : 0 < sizeOfRegion) (hP : 0 < env.pagesize) (hP8 : env.pagesize % 8 = 0)
    (hbig : ¬ (env.pagesize = 8 ∧ sizeOfRegion ≤ 8))
    (hfirst : s.allocated_once = 0) (hfd : env.fd ≠ -1) (hmap : env.mmap_ptr = some base) :
    (initHeap env s sizeOfRegion).2 = 0 ∧
      ((initHeap env s sizeOfRegion).1.allocsize + 8) % env.pagesize = 0 ∧
      sizeOfRegion ≤ (initHeap env s sizeOfRegion).1.allocsize + 8 ∧
      (initHeap env s sizeOfRegion).1.allocsize + 8 < sizeOfRegion + env.pagesize ∧
      (initHeap env s sizeOfRegion).1.heapStart = base + 4 ∧
      SingleFree (initHeap env s sizeOfRegion).1 :=
  initHeap_success env s sizeOfRegion base hsz hP hP8 hbig hfirst hfd hmap

/-- C13, a concrete instance: `initHeap(4096)` with pages of 4096 bytes mapped at 65536. -/
theorem C13_initHeap_postcondition_witness :
    (0 : Int) < 4096 ∧ (0 : Int) < env0.pagesize ∧ env0.pagesize % 8 = 0 ∧
      ¬ (env0.pagesize = 8 ∧ (4096 : Int) ≤ 8) ∧ State.boot.allocated_once = 0 ∧
      env0.fd ≠ -1 ∧ env0.mmap_ptr = some 65536 ∧
      (initHeap env0 State.boot 4096).1.allocsize = 4088 ∧
      SingleFree (initHeap env0 State.boot 4096).1 :=
  ⟨by decide, by decide, by decide, by decide, rfl, by decide, rfl, by decide,
    (C13_initHeap_postcondition env0 State.boot 4096 65536 (by decide) (by decide) (by decide)
      (by decide) rfl (by decide) rfl).2.2.2.2.2⟩

/-- C14 as stated fails when the reservation fails: with `open` failing, `initHeap(4096)`
returns -1 and has already set `allocsize` to 4096. -/
theorem C14_failed_reservation_changes_allocsize :
    (initHeap envNoFile State.boot 4096).2 = -1 ∧
      (initHeap envNoFile State.boot 4096).1.allocsize = 4096 ∧
      State.boot.allocsize = 0 := by
  decide

/-- C14 (initHeap is atomic on failure), amended: a failed reservation leaves `allocsize`
changed.  Where the call gets past its two argument checks, the page size is positive and
capacity + page size < 2^31, so that the rounding of line 282 stays inside `int`.
`initHeap` returns -1 when capacity <= 0, when an earlier call has succeeded, and when
`open` or `mmap` fails; in each case `heapStart`, the cursor, the memory contents and
`allocated_once` are as before; the whole state is as before when capacity <= 0 or an
earlier call has succeeded; and when the call gets as far as the reservation, `allocsize`
holds the capacity rounded up to a multiple of the page size, a value below 2^31. -/
theorem C14_initHeap_failure (env : Env) (s : State) (sizeOfRegion : Int)
    (h : sizeOfRegion ≤ 0 ∨ s.allocated_once ≠ 0 ∨ env.fd = -1 ∨ env.mmap_ptr = none)
    (hint : 0 < sizeOfRegion → s.allocated_once = 0 →
      0 < env.pagesize ∧ sizeOfRegion + env.pagesize < 2147483648) :
    (initHeap env s sizeOfRegion).2 = -1 ∧
      (initHeap env s sizeOfRegion).1.heapStart = s.heapStart ∧
      (initHeap env s sizeOfRegion).1.recentlyAllocated = s.recentlyAllocated ∧
      (initHeap env s sizeOfRegion).1.mem = s.mem ∧
      (initHeap env s sizeOfRegion).1.allocated_once = s.allocated_once ∧
      (sizeOfRegion ≤ 0 ∨ s.allocated_once ≠ 0 → (initHeap env s sizeOfRegion).1 = s) ∧
      (0 < sizeOfRegion → s.allocated_once = 0 →
        (initHeap env s sizeOfRegion).1.allocsize =
          sizeOfRegion +
            Int.tmod (env.pagesize - Int.tmod sizeOfRegion env.pagesize) env.pagesize ∧
        (initHeap env s sizeOfRegion).1.allocsize % env.pagesize = 0 ∧
        sizeOfRegion ≤ (initHeap env s sizeOfRegion).1.allocsize ∧
        (initHeap env s sizeOfRegion).1.allocsize < sizeOfRegion + env.pagesize ∧
        (initHeap env s sizeOfRegion).1.allocsize < 2147483648) := by
  by_cases h1 : s.allocated_once ≠ 0
  · rw [initHeap_again env s sizeOfRegion h1]
    exact ⟨rfl, rfl, rfl, rfl, rfl, fun _ => rfl, fun _ h0 => absurd h0 h1⟩
  · have h1' : s.allocated_once = 0 := not_not.mp h1
    by_cases h2 : sizeOfRegion ≤ 0
    · rw [initHeap_nonpos env s sizeOfRegion h2]
      exact ⟨rfl, rfl, rfl, rfl, rfl, fun _ => rfl, fun hp _ => absurd hp (by omega)⟩
    · have hbad : ¬ (sizeOfRegion ≤ 0 ∨ s.allocated_once ≠ 0) := by
        rintro (hc | hc)
        · exact h2 hc
        · exact h1 hc
      obtain ⟨hP, hbound⟩ := hint (by omega) h1'
      obtain ⟨p1, p2, p3⟩ := pad_facts sizeOfRegion env.pagesize (by omega) hP
      by_cases h3 : env.fd = -1
      · rw [initHeap_open_fails env s sizeOfRegion h1' (by omega) h3]
        refine ⟨rfl, rfl, rfl, rfl, rfl, fun hc => absurd hc hbad, fun _ _ => ⟨rfl, p1, ?_, ?_, ?_⟩⟩
        · show sizeOfRegion ≤ sizeOfRegion + _
          omega
        · show sizeOfRegion + _ < _
          omega
        · show sizeOfRegion + _ < _
          omega
      · have h4 : env.mmap_ptr = none := by
          rcases h with h | h | h | h
          · exact absurd h h2
          · exact absurd h h1
          · exact absurd h h3
          · exact h
        rw [initHeap_mmap_fails env s sizeOfRegion h1' (by omega) h3 h4]
        refine ⟨rfl, rfl, rfl, rfl, h1'.symm, fun hc => absurd hc hbad,
          fun _ _ => ⟨rfl, p1, ?_, ?_, ?_⟩⟩
        · show sizeOfRegion ≤ sizeOfRegion + _
          omega
        · show sizeOfRegion + _ < _
          omega
        · show sizeOfRegion + _ < _
          omega

/-- C14, a concrete instance: `open` fails during `initHeap(4096)`. -/
theorem C14_initHeap_failure_witness :
    ((4096 : Int) ≤ 0 ∨ State.boot.allocated_once ≠ 0 ∨ envNoFile.fd = -1 ∨
        envNoFile.mmap_ptr = none) ∧
      ((0 : Int) < 4096 → State.boot.allocated_once = 0 →
        0 < envNoFile.pagesize ∧ 4096 + envNoFile.pagesize < 2147483648) ∧
      (initHeap envNoFile State.boot 4096).2 = -1 ∧
      (initHeap envNoFile State.boot 4096).1.mem = State.boot.mem :=
  ⟨Or.inr (Or.inr (Or.inl rfl)), fun _ _ => ⟨by decide, by decide⟩,
    (C14_initHeap_failure envNoFile State.boot 4096 (Or.inr (Or.inr (Or.inl rfl)))
      (fun _ _ => ⟨by decide, by decide⟩)).1,
    (C14_initHeap_failure envNoFile State.boot 4096 (Or.inr (Or.inr (Or.inl rfl)))
      (fun _ _ => ⟨by decide, by decide⟩)).2.2.2.1⟩

/-- C15 as stated fails on the address part: right after `initHeap(4096)` with the region
mapped at the page-aligned address 65536, the only block of the sequence starts at
`heapStart` = 65540, which is not a multiple of 8 (its size, 4088, is one). -/
theorem C15_first_block_address_is_not_a_multiple_of_8 :
    Reachable h0 [] ∧ IsBlock h0 65540 ∧ (65540 : Int) % 8 ≠ 0 ∧
      blockSize h0 65540 % 8 = 0 :=
  ⟨reachable_stateAfter [] (by decide), IsBlock.first (by decide), by decide, by decide⟩

/-- C15 (size and alignment invariant), amended: header addresses are 4 more than a
multiple of 8, and the runs are those that keep the cursor on a block.  For every state
reached from a successful `initHeap` (region base page-aligned) by `allocHeap` and
`freeHeap` calls, each `freeHeap` given an outstanding pointer, where after each
`freeHeap` call the cursor is unset or references the header of a block of the sequence:
every block of the sequence has a size that is a multiple of 8, its header starts at an
address that is 4 more than a multiple of 8, and its payload address is a multiple of 8. -/
theorem C15_sizes_and_alignment (s : State) (live : List Int) (h : ReachableOk s live) (a : Int)
    (hb : IsBlock s a) : blockSize s a % 8 = 0 ∧ a % 8 = 4 ∧ (a + 4) % 8 = 0 := by
  obtain ⟨l, hA, _, _, _⟩ := reachableOk_runInv s live h
  obtain ⟨b, hbk⟩ := Option.isSome_iff_exists.1 (isBlock_offset s l hA a hb)
  obtain ⟨_, r2, _, r4⟩ := arena_read_block s l _ b hA hbk
  rw [show s.heapStart + (a - s.heapStart) = a by ring] at r2
  obtain ⟨pre, post, e, hk, hpre, _, _⟩ := arena_block s l _ b hA hbk
  have h8 := seg_sum_mod8 s pre _ _ hpre
  have h4 := hA.2.1
  rw [r2]
  omega

/-- C15, a concrete instance: `initHeap(4096)`, `allocHeap(4)` and the release of the pointer
65544 that it returned; the block at 65540 has a size that is a multiple of 8. -/
theorem C15_sizes_and_alignment_witness :
    ReachableOk (freeHeap ((allocHeap 1 h0 4).getD (h0, 0)).1 65544).1
        (if (freeHeap ((allocHeap 1 h0 4).getD (h0, 0)).1 65544).2 = 0 then
          (if ((allocHeap 1 h0 4).getD (h0, 0)).2 = 0 then []
            else [((allocHeap 1 h0 4).getD (h0, 0)).2]).erase 65544
        else (if ((allocHeap 1 h0 4).getD (h0, 0)).2 = 0 then []
            else [((allocHeap 1 h0 4).getD (h0, 0)).2])) ∧
      IsBlock (freeHeap ((allocHeap 1 h0 4).getD (h0, 0)).1 65544).1 65540 ∧
      blockSize (freeHeap ((allocHeap 1 h0 4).getD (h0, 0)).1 65544).1 65540 % 8 = 0 ∧
      (65540 : Int) % 8 = 4 := by
  have hinit : ReachableOk h0 [] :=
    ReachableOk.init env0 4096 ⟨by decide, by decide, by decide, 65536, rfl, by decide, by decide⟩
      (by decide) (by decide)
  have halloc := ReachableOk.alloc h0 [] 1 4 _ hinit (allocHeap_some_eq 1 h0 4 (by decide))
  have hblock : IsBlock (freeHeap ((allocHeap 1 h0 4).getD (h0, 0)).1 65544).1 65540 :=
    IsBlock.first (by decide)
  have hfree := ReachableOk.free _ _ 65544 halloc (by decide) (Or.inr hblock)
  have h := C15_sizes_and_alignment _ _ hfree 65540 hblock
  exact ⟨hfree, hblock, h.1, h.2.1⟩

/-- C16 (live allocations never overlap), refuted on the code.  After the calls `opsStale`,
`allocHeap(4)` returns `q = heapStart + 12`; with `q` still outstanding, `allocHeap(4076)`
returns `p = heapStart + 4`, and the first byte of the range of `q` lies in `[p, p + 4076)`. -/
theorem C16_live_allocations_overlap :
    ∃ s0 live0 s1 q s2 p, Reachable s0 live0 ∧
      allocHeap 8 s0 4 = some (s1, q) ∧ q ≠ 0 ∧
      allocHeap 8 s1 4076 = some (s2, p) ∧ p ≠ 0 ∧ p ≠ q ∧ p ≤ q ∧ q < p + 4076 := by
  refine ⟨_, _, _, _, _, _, reachable_stateAfter opsStale (by decide),
    allocHeap_some_eq 8 _ 4 (by decide), by decide,
    allocHeap_some_eq 8 _ 4076 (by decide), by decide, by decide, by decide, by decide⟩

/-- C17 (cursor validity), refuted on the code.  After the calls `opsStale` the cursor is
set, and it is not the header address of any block of the sequence: the only block starts
at `heapStart`, the cursor is `heapStart + 8`, in the interior of that free block. -/
theorem C17_cursor_inside_a_free_block :
    ∃ s live, Reachable s live ∧ s.recentlyAllocated ≠ 0 ∧
      ¬ IsBlock s s.recentlyAllocated := by
  refine ⟨_, _, reachable_stateAfter opsStale (by decide), by decide, ?_⟩
  intro h
  have := isBlock_opsStale _ h
  revert this
  decide

/-- C18 (the end marker is never modified), refuted on the code.  After `allocHeap(4084)`,
an exact fit of the only block, the word at `heapStart + allocsize` holds 3. -/
theorem C18_exact_fit_rewrites_end_marker :
    ∃ s live, Reachable s live ∧ s.mem (s.heapStart + s.allocsize) = 3 := by
  exact ⟨_, _, reachable_stateAfter [Op.alloc 4084] (by decide), by decide⟩

/-- C19 (split postcondition).  In a state satisfying the data-model invariants for the
sequence `pre ++ b :: post`, let `allocHeap(size)` with `size > 0` return a non-null
pointer `p` and choose the free block `b` at address `a = heapStart + sumSizes pre` (the
choice shows in `p = a + 4` or in the new cursor being `a`), where `b` is strictly larger
than `req = requiredSize size`.  Then the header at `a` holds `req` with the allocated bit
set and the prev_allocated bit the block had before, the header at `a + req` holds
`b.size - req` with allocated bit 0 and prev_allocated bit 1, the footer at
`a + b.size - 4` holds `b.size - req`, the cursor is `a`, `p = a + 4`, and no other word
has changed.  This holds for every position of the cursor. -/
theorem C19_split_postcondition (s t : State) (pre post : List Blk) (b : Blk) (size p : Int) (fuel : Nat)
    (hwf : WellFormed s (pre ++ b :: post)) (hfree : b.used = false)
    (hsize : 0 < size) (hbig : requiredSize size < b.size)
    (hres : allocHeap fuel s size = some (t, p)) (hnull : p ≠ 0)
    (hchosen : p = s.heapStart + sumSizes pre + 4 ∨
      t.recentlyAllocated = s.heapStart + sumSizes pre) :
    t.mem (s.heapStart + sumSizes pre) =
        headerWord (requiredSize size) true (lastUsed true pre) ∧
      t.mem (s.heapStart + sumSizes pre + requiredSize size) =
        headerWord (b.size - requiredSize size) false true ∧
      t.mem (s.heapStart + sumSizes pre + b.size - 4) = b.size - requiredSize size ∧
      t.recentlyAllocated = s.heapStart + sumSizes pre ∧
      p = s.heapStart + sumSizes pre + 4 ∧
      ∀ x, x ≠ s.heapStart + sumSizes pre →
        x ≠ s.heapStart + sumSizes pre + requiredSize size →
        x ≠ s.heapStart + sumSizes pre + b.size - 4 → t.mem x = s.mem x := by
  obtain ⟨_, hl⟩ := hwf
  rw [layout_append, layout_cons] at hl
  obtain ⟨_, ⟨b1, b2, b3, b4⟩, _⟩ := hl
  obtain ⟨_, hpl⟩ := b4 hfree
  rw [hfree, hpl, headerWord_free_used] at b3
  obtain ⟨r1, r2, r3⟩ := requiredSize_spec size (by omega)
  obtain ⟨_, _, a, ha1, ha2, ha3⟩ := allocHeap_trace fuel s size (t, p) hres hnull
  generalize hs1 : (if s.recentlyAllocated = 0 then
    { s with recentlyAllocated := s.heapStart } else s) = s1 at ha3
  have hm1 : ∀ x, s1.mem x = s.mem x := by
    intro x; rw [← hs1]; split <;> rfl
  have ha1' : s1.mem a % 2 = 0 := by rw [hm1]; exact ha1
  have ha2' : requiredSize size ≤ blockSize s1 a := by
    unfold blockSize at ha2 ⊢; rw [hm1]; exact ha2
  obtain ⟨f1, f2⟩ := allocLoop_one_found s1 _ a _ ha1' ha2' ha3
  have hat : a = s.heapStart + sumSizes pre := by
    rcases hchosen with h | h
    · have : p = a + 4 := f1
      omega
    · exact f2.symm.trans h
  subst hat
  have hw : s1.mem (s.heapStart + sumSizes pre) = b.size + 2 := by rw [hm1]; exact b3
  have t4 : Int.tmod (b.size + 2) 4 = 2 := by
    rw [tmod_of_nonneg _ _ (by omega) (by decide)]; omega
  have t8 : Int.tmod (b.size + 2) 8 ≠ 0 := by
    rw [tmod_of_nonneg _ _ (by omega) (by decide)]; omega
  have hbs : blockSize s1 (s.heapStart + sumSizes pre) = b.size := by
    unfold blockSize; rw [hw, t4]; ring
  rw [allocLoop_split s1 _ _ ha1' (by rw [hbs]; exact hbig) (by rw [hw]; exact t8), hbs] at ha3
  have ht := congrArg Prod.fst (Option.some.inj ha3)
  dsimp only at ht
  have hmem : ∀ x, t.mem x =
      if x = s.heapStart + sumSizes pre + requiredSize size + (b.size - requiredSize size) - 4
        then b.size - requiredSize size
      else if x = s.heapStart + sumSizes pre + requiredSize size
        then b.size - requiredSize size + 2
      else if x = s.heapStart + sumSizes pre then requiredSize size + 3
      else s.mem x := by
    intro x
    rw [← ht, ← hm1 x]
    rfl
  refine ⟨?_, ?_, ?_, f2, f1, ?_⟩
  · rw [hmem, if_neg (by omega), if_neg (by omega), if_pos rfl, hpl, headerWord_used_used]
  · rw [hmem, if_neg (by omega), if_pos rfl, headerWord_free_used]
  · rw [hmem, if_pos (by omega)]
  · intro x h1 h2 h3
    rw [hmem, if_neg (by omega), if_neg h2, if_neg h1]

/-- C19, a concrete instance: `allocHeap(4)` right after `initHeap(4096)` splits the only
block, of 4088 bytes, into a used block of 8 bytes and a free block of 4080 bytes. -/
theorem C19_split_postcondition_witness :
    WellFormed h0 ([] ++ { size := 4088, used := false } :: []) ∧
      (0 : Int) < 4 ∧ requiredSize 4 < 4088 ∧
      ((allocHeap 1 h0 4).getD (h0, 0)).2 ≠ 0 ∧
      ((allocHeap 1 h0 4).getD (h0, 0)).1.mem (h0.heapStart + sumSizes [] + 4088 - 4) =
        4088 - requiredSize 4 ∧
      ((allocHeap 1 h0 4).getD (h0, 0)).1.recentlyAllocated = h0.heapStart + sumSizes [] ∧
      ((allocHeap 1 h0 4).getD (h0, 0)).2 = h0.heapStart + sumSizes [] + 4 := by
  have hwf : WellFormed h0 ([] ++ { size := 4088, used := false } :: []) := by
    refine ⟨by decide, ?_⟩
    show Layout _ _ _ [_]
    rw [layout_cons]
    exact ⟨⟨by decide, by decide, by decide, by decide⟩, by decide, by decide⟩
  have h := C19_split_postcondition h0 _ [] [] { size := 4088, used := false } 4 _ 1 hwf rfl
    (by decide) (by decide) (allocHeap_some_eq 1 h0 4 (by decide)) (by decide)
    (Or.inl (by decide))
  exact ⟨hwf, by decide, by decide, by decide, h.2.2.1, h.2.2.2.1, h.2.2.2.2.1⟩

/-- C20 (exact-fit postcondition), refuted on the code when the chosen block is the last
one.  The state right after `initHeap(4096)` satisfies the data-model invariants with an
unset cursor; `allocHeap(4084)` needs exactly the 4088 bytes of the only block, returns
`heapStart + 4`, and besides the header of that block it changes the end-marker word at
`heapStart + 4088` from 1 to 3. -/
theorem C20_exact_fit_of_last_block_changes_end_marker :
    WellFormed h0 [{ size := 4088, used := false }] ∧ h0.recentlyAllocated = 0 ∧
      requiredSize 4084 = 4088 ∧
      ∃ s1 p, allocHeap 1 h0 4084 = some (s1, p) ∧ p = h0.heapStart + 4 ∧
        h0.mem (h0.heapStart + 4088) = 1 ∧ s1.mem (h0.heapStart + 4088) = 3 := by
  refine ⟨⟨by decide, ?_⟩, by decide, by decide, _, _,
    allocHeap_some_eq 1 h0 4084 (by decide), by decide, by decide, by decide⟩
  rw [layout_cons]
  exact ⟨⟨by decide, by decide, by decide, by decide⟩, by decide, by decide⟩

end HeapAlloc
